import Mathlib

/-!
# Verification of the AiPy photometry core

A shallow embedding, over exact rationals, of the numerical core of the
AiPy photometry application (`signal_processing.py`,
`analysis/peak_analysis.py`, and the analysis routines of
`gui/main_window.py`), together with theorems settling the frozen claims
about its behaviour.

Machine floating-point arithmetic is modelled by exact arithmetic in `ℚ`;
NaN-producing operations (division of zero by zero inside `np.corrcoef`)
are modelled with `Option`.  Calls into external numerical libraries
(`scipy.signal.sosfiltfilt`, `numpy.polynomial.polyfit`) are abstracted as
function parameters, with their documented contracts (length preservation)
taken as hypotheses where a claim needs them.
-/

namespace AiPy

/-! ## Generic list helpers (numpy-style operations) -/

/-- Insertion of an element into a sorted list (helper for `sortQ`). -/
def insertSorted (x : ℚ) : List ℚ → List ℚ
  | [] => [x]
  | y :: ys => if x ≤ y then x :: y :: ys else y :: insertSorted x ys

/-- Ascending sort of a rational list, as `np.sort` produces
(insertion sort; only the sorted-permutation semantics matter). -/
def sortQ (l : List ℚ) : List ℚ := l.foldr insertSorted []

theorem insertSorted_length (x : ℚ) (l : List ℚ) :
    (insertSorted x l).length = l.length + 1 := by
  induction l with
  | nil => rfl
  | cons y ys ih =>
    simp only [insertSorted]
    split <;> simp [ih]

theorem sortQ_length (l : List ℚ) : (sortQ l).length = l.length := by
  induction l with
  | nil => rfl
  | cons x xs ih => simp [sortQ, List.foldr] at ih ⊢; rw [insertSorted_length, ih]

theorem mem_insertSorted {a x : ℚ} {l : List ℚ} (h : a ∈ insertSorted x l) :
    a = x ∨ a ∈ l := by
  induction l with
  | nil =>
    simp only [insertSorted, List.mem_singleton] at h
    exact Or.inl h
  | cons y ys ih =>
    simp only [insertSorted] at h
    split at h
    · simpa using h
    · rcases List.mem_cons.mp h with h1 | h2
      · exact Or.inr (by simp [h1])
      · rcases ih h2 with h3 | h4
        · exact Or.inl h3
        · exact Or.inr (by simp [h4])

theorem mem_sortQ {a : ℚ} {l : List ℚ} (h : a ∈ sortQ l) : a ∈ l := by
  induction l with
  | nil => simp [sortQ] at h
  | cons x xs ih =>
    simp only [sortQ, List.foldr] at h
    rcases mem_insertSorted h with h1 | h2
    · simp [h1]
    · exact List.mem_cons_of_mem _ (ih h2)

/-- `l.getD` of a list of nonnegative rationals, with default `0`,
is nonnegative. -/
theorem getD_nonneg {l : List ℚ} (h : ∀ x ∈ l, 0 ≤ x) (i : ℕ) :
    0 ≤ l.getD i 0 := by
  induction l generalizing i with
  | nil => simp [List.getD]
  | cons x xs ih =>
    cases i with
    | zero => simpa using h x (by simp)
    | succ j =>
      simpa using ih (fun y hy => h y (List.mem_cons_of_mem _ hy)) j

/-! ## `np.percentile` (linear interpolation) and `np.median` -/

/-- `np.percentile(l, 10)` with the default linear interpolation:
with `s` the ascending sort and `n = |l|`, the virtual rank is
`(n-1)·10/100`; the result interpolates between the two neighbouring
order statistics.  (`(n-1)/10` and `(n-1)%10/10` are its integer and
fractional parts.)  Empty input raises in numpy; modelled as `0` here
(all call sites guard non-emptiness). -/
def percentile10 (l : List ℚ) : ℚ :=
  match l with
  | [] => 0
  | _ :: _ =>
    let s := sortQ l
    let n := l.length
    let i := (n - 1) / 10
    let frac : ℚ := ((n - 1) % 10 : ℕ) / 10
    let a := s.getD i 0
    let b := s.getD (min (i + 1) (n - 1)) 0
    a + frac * (b - a)

/-- `np.median`: middle order statistic (odd length) or the mean of the
two middle order statistics (even length).  Empty input modelled as `0`. -/
def median (l : List ℚ) : ℚ :=
  match l with
  | [] => 0
  | _ :: _ =>
    let s := sortQ l
    let n := l.length
    if n % 2 = 1 then s.getD (n / 2) 0
    else (s.getD (n / 2 - 1) 0 + s.getD (n / 2) 0) / 2

/-- A median of nonnegative values is nonnegative. -/
theorem median_nonneg {l : List ℚ} (h : ∀ x ∈ l, 0 ≤ x) : 0 ≤ median l := by
  have hs : ∀ x ∈ sortQ l, 0 ≤ x := fun x hx => h x (mem_sortQ hx)
  cases l with
  | nil => simp [median]
  | cons a as =>
    simp only [median]
    split
    · exact getD_nonneg hs _
    · have h1 := getD_nonneg hs (((a :: as).length) / 2 - 1)
      have h2 := getD_nonneg hs (((a :: as).length) / 2)
      linarith

/-! ## `detect_artifacts` (signal_processing.py, lines 124-137) -/

/-- `detect_artifacts(control_signal, threshold)`: below 2 samples, an
all-`false` mask of the input's length (`np.zeros_like(..., dtype=bool)`);
otherwise flag samples deviating from the median by more than
`threshold * MAD * 1.4826`. -/
def detect_artifacts (control_signal : List ℚ) (threshold : ℚ) : List Bool :=
  if control_signal.length < 2 then
    List.replicate control_signal.length false
  else
    let median_val := median control_signal
    let mad := median (control_signal.map fun x => |x - median_val|)
    let mad_to_std : ℚ := 14826 / 10000
    control_signal.map fun x => decide (|x - median_val| > threshold * mad * mad_to_std)

/-! ## The dF/F normalization stage (signal_processing.py, lines 286-293) -/

/-- The dF/F stage of `process_data_pipeline`:
`f0 = np.percentile(detrended, 10)`, then `f0 = max(abs(f0), 1e-9)`, then
`dff = (detrended - f0) / f0 * 100`.  Note the clamped value is what is
subtracted in the numerator. -/
def dffStage (detrended : List ℚ) : List ℚ :=
  let f0 := max |percentile10 detrended| (1 / 1000000000)
  detrended.map fun x => (x - f0) / f0 * 100

/-- The dF/F formula as the specification words it: the numerator
subtracts the raw 10th-percentile baseline `F0` itself, while only the
denominator is clamped to `max(|F0|, ε)`.  Written for comparison with
`dffStage`, which is the code's actual computation. -/
def dffStageSpec (detrended : List ℚ) : List ℚ :=
  let f0 := percentile10 detrended
  let denom := max |f0| (1 / 1000000000)
  detrended.map fun x => (x - f0) / denom * 100

/-! ## Stride decimation (`arr[::k]`) -/

/-- Numpy basic slicing `arr[::k]`: every `k`-th element starting at
index 0. -/
def everyKth (k : ℕ) : List α → List α
  | [] => []
  | a :: rest => a :: everyKth k (rest.drop (k - 1))
termination_by l => l.length
decreasing_by simp [List.length_drop]; omega

theorem everyKth_length (k : ℕ) (hk : 0 < k) (l : List α) :
    (everyKth k l).length = (l.length + k - 1) / k := by
  induction l using everyKth.induct k with
  | case1 =>
    simp only [everyKth, List.length_nil]
    rw [Nat.div_eq_of_lt (by omega)]
  | case2 a rest ih =>
    simp only [everyKth, List.length_cons]
    rw [ih, List.length_drop]
    rcases Nat.lt_or_ge rest.length (k - 1) with h | h
    · rw [Nat.div_eq_of_lt (by omega)]
      have h2 : rest.length + 1 + k - 1 = rest.length + k := by omega
      rw [h2]
      have h3 : (rest.length + k) / k = 1 := Nat.div_eq_of_lt_le (by omega) (by omega)
      omega
    · have h1 : rest.length - (k - 1) + k - 1 = rest.length := by omega
      rw [h1]
      have h2 : rest.length + 1 + k - 1 = rest.length + k := by omega
      rw [h2, Nat.add_div_right _ hk]

theorem getD_drop (l : List α) (n i : ℕ) (d : α) :
    (l.drop n).getD i d = l.getD (n + i) d := by
  induction l generalizing n i with
  | nil => simp [List.getD]
  | cons x xs ih =>
    cases n with
    | zero => simp
    | succ m =>
      simp only [List.drop_succ_cons, ih]
      have : m + 1 + i = (m + i) + 1 := by omega
      rw [this]
      rfl

theorem everyKth_getD (k : ℕ) (hk : 0 < k) (l : List α) (d : α) (i : ℕ) :
    (everyKth k l).getD i d = l.getD (i * k) d := by
  induction l using everyKth.induct k generalizing i with
  | case1 => simp [everyKth]
  | case2 a rest ih =>
    cases i with
    | zero => simp [everyKth]
    | succ j =>
      simp only [everyKth]
      have h1 : (a :: (everyKth k (rest.drop (k - 1)))).getD (j + 1) d
          = (everyKth k (rest.drop (k - 1))).getD j d := rfl
      rw [h1, ih j, getD_drop]
      have h2 : (j + 1) * k = (k - 1 + j * k) + 1 := by
        have : 1 ≤ k := hk
        calc (j + 1) * k = j * k + k := by ring
        _ = (k - 1 + j * k) + 1 := by omega
      rw [h2]
      rfl

/-! ## `butter_filter` (signal_processing.py, lines 23-112) -/

/-- The `cutoff` argument of `butter_filter`: a scalar (low/high-pass) or a
two-element list (band-pass/stop). -/
inductive Cutoff
  | single (c : ℚ)
  | pair (lo hi : ℚ)

/-- The validation `butter_filter` performs on its cutoff argument:
`np.any(cutoff <= 0) or np.any(cutoff >= fs/2)` rejects; `valid` is the
complement (every entry strictly inside `(0, fs/2)`). -/
def Cutoff.valid (c : Cutoff) (fs : ℚ) : Bool :=
  match c with
  | .single c => decide (0 < c ∧ c < fs / 2)
  | .pair lo hi => decide (0 < lo ∧ lo < fs / 2 ∧ 0 < hi ∧ hi < fs / 2)

/-- `butter_filter(data, cutoff, fs, btype, order)`.  Exact-arithmetic
embedding over `ℚ`: every rational is finite, so the NaN/inf sanitization
step is the identity here.  The external filtering machinery — the
GPU path, `scipy.signal.butter` (whose failure the code catches and
answers with the unmodified input) and `scipy.signal.sosfiltfilt`
(likewise) — is abstracted as `core`, with `none` modelling a raised
exception; a finite (`some`) result is returned as-is (the final
`np.all(np.isfinite(...))` check always passes in `ℚ`). -/
def butter_filter (core : List ℚ → Option (List ℚ))
    (data : List ℚ) (cutoff : Cutoff) (fs : ℚ) (order : ℕ) : List ℚ :=
  if data.length = 0 then data
  else if ¬ cutoff.valid fs then data
  else if data.length < max (order * 6) 9 then data
  else
    match core data with
    | none => data
    | some filtered_data => filtered_data

/-! ## Linear interpolation helpers -/

/-- `scipy.interpolate.interp1d(xs, ys, kind='linear',
fill_value='extrapolate')` evaluated at `x`, over knot pairs: inside the
knot range, linear interpolation on the bracketing segment; outside, linear
extrapolation along the first/last segment. -/
def interp1dLin (knots : List (ℚ × ℚ)) (x : ℚ) : ℚ :=
  match knots with
  | [] => 0
  | [(_, f0)] => f0
  | (x0, f0) :: (x1, f1) :: rest =>
    if x ≤ x1 ∨ rest = [] then f0 + (f1 - f0) * (x - x0) / (x1 - x0)
    else interp1dLin ((x1, f1) :: rest) x

/-- `np.interp(x, xp, fp)` (evaluation points clamped to the knot range:
constant extension with `fp[0]` / `fp[-1]` outside). -/
def npInterp (x : ℚ) : List ℚ → List ℚ → ℚ
  | [], _ => 0
  | _ :: _, [] => 0
  | [_], f0 :: _ => f0
  | _ :: _ :: _, [f0] => f0
  | x0 :: x1 :: xs, f0 :: f1 :: fs =>
    if x ≤ x0 then f0
    else if x ≤ x1 then f0 + (f1 - f0) * (x - x0) / (x1 - x0)
    else npInterp x (x1 :: xs) (f1 :: fs)

/-- Arithmetic mean (`np.mean`); `0` on the empty list (numpy's NaN). -/
def mean (l : List ℚ) : ℚ := l.sum / l.length

/-- `scipy.stats.linregress(x, y)`, returning `(slope, intercept)`:
`slope = Σ(xᵢ-x̄)(yᵢ-ȳ) / Σ(xᵢ-x̄)²`, `intercept = ȳ - slope·x̄`.
(Division by a zero variance — which makes scipy produce NaN/raise —
hits `ℚ`'s `x/0 = 0` convention; every call site either guards variance
or catches the failure.) -/
def linregress (x y : List ℚ) : ℚ × ℚ :=
  let xm := mean x
  let ym := mean y
  let slope := ((x.zip y).map fun p => (p.1 - xm) * (p.2 - ym)).sum
      / ((x.map fun a => (a - xm) ^ 2).sum)
  (slope, ym - slope * xm)

/-! ## `fit_bleaching_correction` (signal_processing.py, lines 114-122) -/

/-- `np.std(l) < 1e-9` decided in exact arithmetic: the population
standard deviation is below `1e-9` iff the variance is below `1e-18`. -/
def stdBelowTol (l : List ℚ) : Bool :=
  decide ((l.map fun a => (a - mean l) ^ 2).sum / l.length < 1 / (10 : ℚ) ^ 18)

/-- `fit_bleaching_correction(signal, control)`: zeros when either input
is empty; a mean-ratio rescaling of the control when either trace is
(numerically) constant; otherwise the linear regression of the signal on
the control, evaluated on the control. -/
def fit_bleaching_correction (signal control : List ℚ) : List ℚ :=
  if control.length = 0 ∨ signal.length = 0 then
    List.replicate signal.length 0
  else if stdBelowTol control ∨ stdBelowTol signal then
    let scale_factor := mean signal / (if 1 / 1000000000 < mean control then mean control else 1)
    control.map (· * scale_factor)
  else
    let slope_intercept := linregress control signal
    control.map fun c => slope_intercept.1 * c + slope_intercept.2

/-! ## `advanced_denoise_signal` (signal_processing.py, lines 139-177) -/

/-- `advanced_denoise_signal(signal, time, artifact_mask, control_signal,
aggressive_mode)`.  The result is `signal.copy()` with the entries at
`artifact_indices` overwritten (here: a rebuild of the array where
unmasked positions keep their original value), by linear interpolation
through the clean knots — blended 70/30 with a regression prediction in
aggressive mode with a control and more than 10 clean samples.  The
`except` fallback around the regression cannot fire in `ℚ` (exact
arithmetic raises nothing). -/
def advanced_denoise_signal (signal time : List ℚ) (artifact_mask : List Bool)
    (control_signal : Option (List ℚ)) (aggressive_mode : Bool) : List ℚ :=
  if ¬ artifact_mask.any id then signal
  else
    let valid_indices := (List.range artifact_mask.length).filter
        fun i => artifact_mask.getD i false = false
    if valid_indices.length < 2 then signal
    else
      let knots := valid_indices.map fun i => (time.getD i 0, signal.getD i 0)
      let interp_val : ℕ → ℚ := fun i => interp1dLin knots (time.getD i 0)
      let new_val : ℕ → ℚ :=
        match control_signal with
        | some control =>
          if aggressive_mode ∧ 10 < valid_indices.length then
            let (slope, intercept) := linregress
                (valid_indices.map fun i => control.getD i 0)
                (valid_indices.map fun i => signal.getD i 0)
            fun i => 7 / 10 * (slope * control.getD i 0 + intercept) + 3 / 10 * interp_val i
          else interp_val
        | none => interp_val
      (List.range signal.length).map
        fun i => if artifact_mask.getD i false then new_val i else signal.getD i 0

/-! ## `process_data_pipeline` (signal_processing.py, lines 179-326) -/

/-- The `filter_type` argument.  Any string other than the four named
kinds (e.g. `'None'`) matches no branch and leaves both traces
unfiltered. -/
inductive FilterType
  | Lowpass
  | Highpass
  | Bandpass
  | Bandstop
  | NoFilter

/-- The six parallel outputs of the pipeline.  The Python function returns
the six-tuple `(time, dff, raw1, raw2, drift, artifact_mask)`; `raw2` and
`drift` may be `None` individually, and the all-`None` failure tuple is
modelled by `Option PipelineOutput = none` at the call boundary. -/
structure PipelineOutput where
  time : List ℚ
  dff : List ℚ
  raw1 : List ℚ
  raw2 : Option (List ℚ)
  drift : Option (List ℚ)
  mask : List Bool
  deriving Repr, DecidableEq

/-- The filtering stage of `process_data_pipeline`: per `filter_type`,
`butter_filter` is applied with the appropriate cutoff(s)/btype to the
signal and — when present — the control.  A `filter_type` string matching
no branch (e.g. `'None'`) leaves both traces unfiltered.  (The `except`
handler around this stage cannot fire: `butter_filter` is total.) -/
def pipelineFilterStage (core : List ℚ → Option (List ℚ))
    (signal_raw : List ℚ) (control_raw : Option (List ℚ))
    (fs low_cutoff high_cutoff : ℚ) (filter_type : FilterType)
    (filter_order : ℕ) : List ℚ × Option (List ℚ) :=
  match filter_type with
  | .Lowpass =>
    (butter_filter core signal_raw (.single high_cutoff) fs filter_order,
     control_raw.map fun c => butter_filter core c (.single high_cutoff) fs filter_order)
  | .Highpass =>
    (butter_filter core signal_raw (.single low_cutoff) fs filter_order,
     control_raw.map fun c => butter_filter core c (.single low_cutoff) fs filter_order)
  | .Bandpass =>
    (butter_filter core signal_raw (.pair low_cutoff high_cutoff) fs filter_order,
     control_raw.map fun c => butter_filter core c (.pair low_cutoff high_cutoff) fs filter_order)
  | .Bandstop =>
    (butter_filter core signal_raw (.pair low_cutoff high_cutoff) fs filter_order,
     control_raw.map fun c => butter_filter core c (.pair low_cutoff high_cutoff) fs filter_order)
  | .NoFilter => (signal_raw, control_raw)

/-- The motion-correction stage: with a control present,
`processed_signal - fit_bleaching_correction(processed_signal,
processed_control)` (elementwise); without one, the signal is passed
through. -/
def pipelineMotionStage (sig : List ℚ) (ctrl : Option (List ℚ)) : List ℚ :=
  match ctrl with
  | some c => (sig.zip (fit_bleaching_correction sig c)).map fun p => p.1 - p.2
  | none => sig

/-- The drift-correction stage: when enabled, subtract the polynomial
drift curve fitted on the normalized time axis (`driftFit`, abstracting
`np.polynomial.polyfit`/`polyval`; `none` is the caught exception, which
degrades to the identity with no baseline curve).  Returns
`(detrended, drift_curve)`. -/
def pipelineDriftStage (driftFit : List ℚ → Option (List ℚ))
    (drift_correction : Bool) (mc : List ℚ) : List ℚ × Option (List ℚ) :=
  if drift_correction then
    match driftFit mc with
    | some drift_curve => ((mc.zip drift_curve).map fun p => p.1 - p.2, some drift_curve)
    | none => (mc, none)
  else (mc, none)

/-- The processing stages of `process_data_pipeline` after input
validation and before decimation, producing the full-length parallel
arrays.  `core` abstracts the scipy filtering backend inside
`butter_filter` (see there).  The finite-value cleaning of the input
arrays is the identity in `ℚ`. -/
def pipelineFull (core : List ℚ → Option (List ℚ))
    (driftFit : List ℚ → Option (List ℚ))
    (time_raw signal_raw : List ℚ) (control_raw : Option (List ℚ))
    (fs low_cutoff high_cutoff : ℚ) (drift_correction : Bool)
    (filter_type : FilterType) (filter_order : ℕ)
    (filter_raw_signals : Bool) : PipelineOutput :=
  let artifact_mask := match control_raw with
    | some c => detect_artifacts c 3
    | none => List.replicate signal_raw.length false
  let filtered := pipelineFilterStage core signal_raw control_raw fs
      low_cutoff high_cutoff filter_type filter_order
  let motion_corrected := pipelineMotionStage filtered.1 filtered.2
  let detrendedPair := pipelineDriftStage driftFit drift_correction motion_corrected
  { time := time_raw
    dff := dffStage detrendedPair.1
    raw1 := if filter_raw_signals then filtered.1 else signal_raw
    raw2 := if filter_raw_signals then filtered.2 else control_raw
    drift := detrendedPair.2
    mask := artifact_mask }

/-- `process_data_pipeline`: up-front validation (empty/`None` signal,
non-positive `fs`, `low_cutoff >= high_cutoff` each return the all-`None`
six-tuple, modelled as `none`), then the stage chain of `pipelineFull`,
then stride decimation `arr[::factor]` with `factor = int(max(1,
downsample_factor))` applied to every parallel array. -/
def process_data_pipeline (core : List ℚ → Option (List ℚ))
    (driftFit : List ℚ → Option (List ℚ))
    (time_raw : List ℚ) (signal_raw : Option (List ℚ))
    (control_raw : Option (List ℚ))
    (fs low_cutoff high_cutoff : ℚ) (drift_correction : Bool)
    (downsample_factor : ℕ) (filter_type : FilterType) (filter_order : ℕ)
    (filter_raw_signals : Bool) : Option PipelineOutput :=
  if signal_raw.getD [] = [] then none
  else if fs ≤ 0 then none
  else if high_cutoff ≤ low_cutoff then none
  else
    let full := pipelineFull core driftFit time_raw (signal_raw.getD [])
        control_raw fs low_cutoff high_cutoff drift_correction filter_type
        filter_order filter_raw_signals
    let factor := max 1 downsample_factor
    some { time := everyKth factor full.time
           dff := everyKth factor full.dff
           raw1 := everyKth factor full.raw1
           raw2 := full.raw2.map (everyKth factor)
           drift := full.drift.map (everyKth factor)
           mask := everyKth factor full.mask }

/-! ## `calculate_peak_metrics` (analysis/peak_analysis.py, lines 25-62) -/

/-- Numpy's truthiness test `index_array.any()`: true iff some element is
nonzero.  The code uses it as an emptiness test on index arrays, so an
index array whose only element is `0` counts as empty. -/
def anyNonzero (l : List ℕ) : Bool := l.any fun i => i ≠ 0

/-- `scipy.integrate.trapezoid(y, x)`: `Σ (x[i+1]-x[i])·(y[i]+y[i+1])/2`. -/
def trapezoid : List ℚ → List ℚ → ℚ
  | y0 :: y1 :: ys, x0 :: x1 :: xs =>
    (x1 - x0) * (y0 + y1) / 2 + trapezoid (y1 :: ys) (x1 :: xs)
  | _, _ => 0

/-- `np.where(seg >= h)[0]`: the indices into `seg` whose value is at
least `h`, in increasing order. -/
def npWhereGe (seg : List ℚ) (h : ℚ) : List ℕ :=
  (List.range seg.length).filter fun j => h ≤ seg.getD j 0

/-- Python slice `l[a:b]`. -/
def pySlice (l : List α) (a b : ℕ) : List α := (l.drop a).take (b - a)

/-- The loop body of `calculate_peak_metrics` for one peak index:
`none` models the `except` path that appends NaN to all four metric
lists; `some (fwhm, rise_time, decay_time, area)` the successful
computation. -/
def peakMetricsOne (valley_indices : List ℕ) (signal time : List ℚ)
    (peak_idx : ℕ) : Option (ℚ × ℚ × ℚ × ℚ) :=
  let preceding_valleys := valley_indices.filter fun v => v < peak_idx
  let following_valleys := valley_indices.filter fun v => peak_idx < v
  if ¬ anyNonzero preceding_valleys ∨ ¬ anyNonzero following_valleys then none
  else
    let pre_v_idx := preceding_valleys.getLastD 0
    let post_v_idx := following_valleys.headD 0
    let base_level := min (signal.getD pre_v_idx 0) (signal.getD post_v_idx 0)
    let peak_height := signal.getD peak_idx 0
    let half_height := base_level + (peak_height - base_level) / 2
    let rise_indices :=
      (npWhereGe (pySlice signal pre_v_idx (peak_idx + 1)) half_height).map (· + pre_v_idx)
    let decay_indices :=
      (npWhereGe (pySlice signal peak_idx (post_v_idx + 1)) half_height).map (· + peak_idx)
    if ¬ anyNonzero rise_indices ∨ ¬ anyNonzero decay_indices then none
    else
      let rise_t_idx := rise_indices.headD 0
      let decay_t_idx := decay_indices.getLastD 0
      let time_segment := pySlice time pre_v_idx (post_v_idx + 1)
      let signal_segment := pySlice signal pre_v_idx (post_v_idx + 1)
      some (time.getD decay_t_idx 0 - time.getD rise_t_idx 0,
            time.getD peak_idx 0 - time.getD rise_t_idx 0,
            time.getD decay_t_idx 0 - time.getD peak_idx 0,
            trapezoid (signal_segment.map fun s => s - base_level) time_segment)

/-- `calculate_peak_metrics(peak_data, valley_data, signal, time)`:
`none` when the peak index array is (numpy-)empty; otherwise one row
per peak, `[0, len(signal)-1]` standing in for absent valley data. -/
def calculate_peak_metrics (peak_indices valley_indices : List ℕ)
    (signal time : List ℚ) : Option (List (Option (ℚ × ℚ × ℚ × ℚ))) :=
  if ¬ anyNonzero peak_indices then none
  else
    let valleys := if anyNonzero valley_indices then valley_indices
      else [0, signal.length - 1]
    some (peak_indices.map (peakMetricsOne valleys signal time))

/-! ## `generate_psth` (gui/main_window.py, lines 1404-1443) -/

/-- `np.min` (0 on empty, which numpy rejects; call sites guard). -/
def npMin (l : List ℚ) : ℚ :=
  match l with
  | [] => 0
  | x :: xs => xs.foldl min x

/-- `np.max` (0 on empty). -/
def npMax (l : List ℚ) : ℚ :=
  match l with
  | [] => 0
  | x :: xs => xs.foldl max x

/-- `np.searchsorted(a, v)` (side `'left'`) on a sorted array: the number
of elements strictly below `v`. -/
def searchsortedLeft (l : List ℚ) (v : ℚ) : ℕ := l.countP fun x => decide (x < v)

/-- `np.arange(start, stop, step)` for a positive step: the values
`start + i·step` for `0 ≤ i < ⌈(stop-start)/step⌉`. -/
def npArange (start stop step : ℚ) : List ℚ :=
  (List.range (Int.ceil ((stop - start) / step)).toNat).map
    fun (i : ℕ) => start + (i : ℚ) * step

/-- The event filter of `generate_psth`:
`(event_times >= time_min + pre_time) & (event_times <= time_max -
post_time)` — exactly the events whose window `[e-pre, e+post]` lies
inside the trace's time range. -/
def psthWindowOk (time : List ℚ) (pre_time post_time : ℚ) (e : ℚ) : Bool :=
  decide (npMin time + pre_time ≤ e ∧ e ≤ npMax time - post_time)

/-- One iteration of the PSTH accumulation loop: the interpolated signal
row for one (already window-validated) event, or `none` when the
iteration `continue`s without appending a row (degenerate window
indices).  `start_idx < 0` is impossible for `np.searchsorted`, so only
the `end_idx >= len(time)` half of the code's guard is live. -/
def psthRow (time signal time_bins : List ℚ) (bin_size pre_time post_time : ℚ)
    (event_time : ℚ) : Option (List ℚ) :=
  let start_idx := searchsortedLeft time (event_time - pre_time)
  let end_idx := searchsortedLeft time (event_time + post_time)
  if time.length ≤ end_idx then none
  else
    let event_time_rel := (pySlice time start_idx end_idx).map fun t => t - event_time
    let event_signal := pySlice signal start_idx end_idx
    if 1 < event_time_rel.length then
      some (time_bins.dropLast.map fun b =>
        npInterp (b + bin_size / 2) event_time_rel event_signal)
    else none

/-- `generate_psth`, from the final event-time validation to the
`valid_events == 0` check: the GUI message boxes reporting failure are
modelled as `Except.error`; `Except.ok` carries the accumulated PSTH
matrix (the subsequent mean/SEM/plotting consume it unchanged). -/
def generate_psth (time signal event_times : List ℚ)
    (pre_time post_time bin_size : ℚ) : Except String (List (List ℚ)) :=
  if event_times = [] then .error "no event times"
  else if time = [] ∨ signal = [] then .error "invalid signal data"
  else if event_times.filter (psthWindowOk time pre_time post_time) = [] then
    .error "no events within the valid time range"
  else if (event_times.filter (psthWindowOk time pre_time post_time)).filterMap
      (psthRow time signal (npArange (-pre_time) (post_time + bin_size) bin_size)
        bin_size pre_time post_time) = [] then
    .error "no valid events found"
  else
    .ok ((event_times.filter (psthWindowOk time pre_time post_time)).filterMap
      (psthRow time signal (npArange (-pre_time) (post_time + bin_size) bin_size)
        bin_size pre_time post_time))

/-! ## Correlation suite (gui/main_window.py, lines 1510-1629),
specialized to the self-correlation round trip the claim is about
(both signal selectors resolve to the same `(time, signal)` trace). -/

/-- `np.linspace(a, b, n)`. -/
def linspace (a b : ℚ) (n : ℕ) : List ℚ :=
  if n = 1 then [a]
  else (List.range n).map fun (i : ℕ) => a + (b - a) * (i : ℚ) / ((n : ℚ) - 1)

/-- The shared evenly spaced grid both analyses resample onto:
`np.linspace(max(t1[0], t2[0]), min(t1[-1], t2[-1]), min(len t1, len t2))`,
with both traces equal. -/
def commonGrid (time : List ℚ) : List ℚ :=
  linspace (time.headD 0) (time.getLastD 0) time.length

/-- The resampled trace `np.interp(common_time, time, signal)`. -/
def resampled (time sig : List ℚ) : List ℚ :=
  (commonGrid time).map fun t => npInterp t time sig

/-- `calculate_pearson_correlation` on a trace against itself:
`np.corrcoef(z, z)[0, 1] = C01 / (sqrt(C00)·sqrt(C11))` where every
`Cij` equals the sample variance `v = Σ(zᵢ-z̄)²/(n-1) ≥ 0`; since
`sqrt(v)·sqrt(v) = v` exactly, the coefficient is `v / v`, and `v = 0`
makes numpy produce NaN (`0/0`), modelled as `none`. -/
def pearsonSelf (time sig : List ℚ) : Option ℚ :=
  let z := resampled time sig
  let m := mean z
  let v := (z.map fun a => (a - m) ^ 2).sum / ((time.length : ℚ) - 1)
  if v = 0 then none else some (v / v)

/-- Zero-padded indexing of a trace by a (possibly negative) integer. -/
def zGet (z : List ℚ) (i : ℤ) : ℚ :=
  if 0 ≤ i then z.getD i.toNat 0 else 0

/-- The discrete autocorrelation at integer lag `ℓ`:
`Σᵢ z[i]·z[i-ℓ]` with zero padding — entry `center + ℓ` of
`np.correlate(z, z, mode='full')`. -/
def autoCorr (z : List ℚ) (ℓ : ℤ) : ℚ :=
  ((List.range z.length).map fun i => z.getD i 0 * zGet z ((i : ℤ) - ℓ)).sum

/-- `np.correlate(z, z, mode='full')`: `2n-1` entries, entry `j` holding
the autocorrelation at lag `j - (n-1)`. -/
def correlateFull (z : List ℚ) : List ℚ :=
  (List.range (2 * z.length - 1)).map
    fun (j : ℕ) => autoCorr z ((j : ℤ) - (z.length - 1 : ℕ))

/-- `np.argmax`: the first index attaining the maximum value
(`np.argmax` scans left to right). -/
def argmaxFirst (l : List ℚ) : ℕ := l.findIdx fun x => x = npMax l

/-- `calculate_cross_correlation` on a trace against itself, up to the
peak-lag readout: resample, full autocorrelation, normalization by
`np.linalg.norm(z) * np.linalg.norm(z)` (which equals `Σ z²` exactly),
trim to `±max_lag` around the center, and report
`lags[np.argmax(np.abs(cc_trimmed))]`. -/
def crossCorrSelfPeakLag (time sig : List ℚ) (max_lag : ℚ) : ℚ :=
  let z := resampled time sig
  let cross_corr := (correlateFull z).map fun c => c / (z.map fun a => a ^ 2).sum
  let common_time := commonGrid time
  let dt := common_time.getD 1 0 - common_time.getD 0 0
  let max_lag_samples := (Int.floor (max_lag / dt)).toNat
  let center := (2 * z.length - 1) / 2
  let lag_start := center - max_lag_samples
  let lag_end := min (2 * z.length - 1) (center + max_lag_samples + 1)
  let trimmed := pySlice cross_corr lag_start lag_end
  let peak_idx := argmaxFirst (trimmed.map fun x => |x|)
  ((lag_start : ℤ) - center + peak_idx) * dt

/-! ## Shared helper lemmas -/

theorem getD_replicate {α : Type} (a : α) (n i : ℕ) :
    (List.replicate n a).getD i a = a := by
  induction n generalizing i with
  | zero => simp [List.getD]
  | succ m ih =>
    cases i with
    | zero => simp [List.replicate_succ]
    | succ j =>
      rw [List.replicate_succ]
      exact ih j

theorem detect_artifacts_length (c : List ℚ) (θ : ℚ) :
    (detect_artifacts c θ).length = c.length := by
  unfold detect_artifacts
  split <;> simp

theorem butter_filter_length (core : List ℚ → Option (List ℚ)) (data : List ℚ)
    (cutoff : Cutoff) (fs : ℚ) (order : ℕ)
    (hcore : ∀ l out, core l = some out → out.length = l.length) :
    (butter_filter core data cutoff fs order).length = data.length := by
  unfold butter_filter
  split_ifs with h1 h2 h3 <;>
    first
    | rfl
    | cases hc : core data with
      | none => rfl
      | some out => exact hcore data out hc

/-! ## Claim theorems -/

/-- **C6.** Artifact-mask monotonicity: the mask always has the input's
length, and for thresholds `θ1 < θ2` every sample flagged at `θ2`
(`|value - median| > θ · MAD · 1.4826`) is also flagged at `θ1`. -/
theorem detect_artifacts_monotone (c : List ℚ) (θ1 θ2 : ℚ) (h : θ1 < θ2) :
    (detect_artifacts c θ1).length = c.length ∧
    (detect_artifacts c θ2).length = c.length ∧
    ∀ i, (detect_artifacts c θ2).getD i false = true →
      (detect_artifacts c θ1).getD i false = true := by
  refine ⟨detect_artifacts_length c θ1, detect_artifacts_length c θ2, ?_⟩
  intro i hi
  by_cases hlen : c.length < 2
  · rw [detect_artifacts, if_pos hlen] at hi
    rw [getD_replicate] at hi
    exact absurd hi (by simp)
  · rw [detect_artifacts, if_neg hlen] at hi
    rw [detect_artifacts, if_neg hlen]
    rcases Nat.lt_or_ge i c.length with hlt | hge
    · rw [List.getD_eq_getElem _ _ (by simpa using hlt)] at hi
      rw [List.getD_eq_getElem _ _ (by simpa using hlt)]
      simp only [List.getElem_map, decide_eq_true_eq] at hi ⊢
      have hmad : 0 ≤ median (c.map fun x => |x - median c|) := by
        apply median_nonneg
        intro x hx
        rcases List.mem_map.mp hx with ⟨y, _, rfl⟩
        exact abs_nonneg _
      have hk : (0 : ℚ) ≤ 14826 / 10000 := by norm_num
      nlinarith [hi, hmad, hk]
    · rw [List.getD_eq_default _ _ (by simpa using hge)] at hi
      exact absurd hi (by simp)

/-- Witness for C6 at a concrete input. -/
theorem detect_artifacts_monotone_witness :
    (detect_artifacts [0, 0, 0, 10] 2).length = 4 ∧
    (detect_artifacts [0, 0, 0, 10] 3).length = 4 ∧
    ∀ i, (detect_artifacts [0, 0, 0, 10] 3).getD i false = true →
      (detect_artifacts [0, 0, 0, 10] 2).getD i false = true :=
  detect_artifacts_monotone [0, 0, 0, 10] 2 3 (by norm_num)

/-- **C3 (counterexample).** On a detrended trace whose 10th percentile
`F0` is negative (`-1` here), the code's dF/F output differs from the
spec's formula `(detrended - F0)/max(|F0|, ε)·100`: the code subtracts the
clamped `max(|F0|, ε) = 1`, not `F0 = -1`, giving `-1100` instead of
`-900` at sample 0. -/
theorem dff_numerator_counterexample :
    percentile10 [-10, 0, 0, 0, 0, 0, 0, 0, 0, 0] = -1 ∧
    (dffStage [-10, 0, 0, 0, 0, 0, 0, 0, 0, 0]).headD 0 = -1100 ∧
    (dffStageSpec [-10, 0, 0, 0, 0, 0, 0, 0, 0, 0]).headD 0 = -900 ∧
    dffStage [-10, 0, 0, 0, 0, 0, 0, 0, 0, 0]
      ≠ dffStageSpec [-10, 0, 0, 0, 0, 0, 0, 0, 0, 0] := by
  refine ⟨?_, ?_, ?_, ?_⟩
  · norm_num [percentile10, sortQ, insertSorted]
  · norm_num [dffStage, percentile10, sortQ, insertSorted]
  · norm_num [dffStageSpec, percentile10, sortQ, insertSorted]
  · intro heq
    have h1 : (dffStage [-10, 0, 0, 0, 0, 0, 0, 0, 0, 0]).headD 0 = -1100 := by
      norm_num [dffStage, percentile10, sortQ, insertSorted]
    have h2 : (dffStageSpec [-10, 0, 0, 0, 0, 0, 0, 0, 0, 0]).headD 0 = -900 := by
      norm_num [dffStageSpec, percentile10, sortQ, insertSorted]
    rw [heq, h2] at h1
    norm_num at h1

/-- **C3 (amended).** The normalization stage computes `F0` as the 10th
percentile of the detrended trace, clamps it to `c = max(|F0|, ε)`, and
outputs `(detrended - c)/c · 100` at every sample: the clamped value is
both subtracted and divided by. -/
theorem dffStage_formula (detrended : List ℚ) :
    dffStage detrended = detrended.map fun x =>
      (x - max |percentile10 detrended| (1 / 1000000000))
        / max |percentile10 detrended| (1 / 1000000000) * 100 := rfl

/-- **C7.** `butter_filter` returns the input unchanged on every
degenerate input (empty data, invalid cutoff, data shorter than the
order-dependent minimum `max(6·order, 9)`), and — whenever the scipy core
preserves array length, which `sosfiltfilt` does — the returned trace
always has the input's length.  (The embedding is a total function: every
failure of the core is mapped to the unchanged input, mirroring the
code's `except` handlers.) -/
theorem butter_filter_robust (core : List ℚ → Option (List ℚ)) (data : List ℚ)
    (cutoff : Cutoff) (fs : ℚ) (order : ℕ)
    (hcore : ∀ l out, core l = some out → out.length = l.length) :
    (data.length = 0 → butter_filter core data cutoff fs order = data) ∧
    (cutoff.valid fs = false → butter_filter core data cutoff fs order = data) ∧
    (data.length < max (order * 6) 9 → butter_filter core data cutoff fs order = data) ∧
    (butter_filter core data cutoff fs order).length = data.length := by
  refine ⟨?_, ?_, ?_, butter_filter_length core data cutoff fs order hcore⟩
  · intro h
    unfold butter_filter
    rw [if_pos h]
  · intro h
    unfold butter_filter
    split_ifs with h1 h2 h3 <;> simp_all
  · intro h
    unfold butter_filter
    split_ifs with h1 h2 <;> rfl

/-- Witness for C7 at a concrete input (identity core, too-short data). -/
theorem butter_filter_robust_witness :
    ((3 : ℕ) < max (2 * 6) 9 →
      butter_filter (fun l => some l) [1, 2, 3] (.single 1) 10 2 = [1, 2, 3]) ∧
    (butter_filter (fun l => some l) [1, 2, 3] (.single 1) 10 2).length = 3 := by
  have h := butter_filter_robust (fun l => some l) [1, 2, 3] (.single 1) 10 2
    (fun l out heq => by cases heq; rfl)
  exact ⟨fun _ => h.2.2.1 (by norm_num), h.2.2.2⟩

/-- **C1.** The pipeline rejects a call with the single failure signal
(the all-`None` six-tuple, modelled `none`) precisely when the input is
structurally invalid: empty/`None` signal, non-positive sampling rate, or
`low_cutoff ≥ high_cutoff`.  In particular every structurally valid call
passes all three checks and produces outputs. -/
theorem pipeline_validation (core driftFit : List ℚ → Option (List ℚ))
    (time_raw : List ℚ) (signal_raw : Option (List ℚ)) (control_raw : Option (List ℚ))
    (fs low_cutoff high_cutoff : ℚ) (dc : Bool) (k : ℕ) (ft : FilterType)
    (ord : ℕ) (frs : Bool) :
    process_data_pipeline core driftFit time_raw signal_raw control_raw
        fs low_cutoff high_cutoff dc k ft ord frs = none
      ↔ (signal_raw.getD [] = [] ∨ fs ≤ 0 ∨ high_cutoff ≤ low_cutoff) := by
  unfold process_data_pipeline
  split_ifs with h1 h2 h3
  · simp [h1]
  · simp [h1, h2]
  · simp [h1, h2, h3]
  · simp [h1, h2, h3]

/-- Witness for C1: a concrete invalid call (empty signal) is rejected,
and a concrete valid call is not. -/
theorem pipeline_validation_witness :
    process_data_pipeline (fun _ => none) (fun _ => none) [] (some []) none
        1 0 1 true 1 .Bandpass 2 true = none ∧
    ¬ process_data_pipeline (fun _ => none) (fun _ => none) [0] (some [1]) none
        1 0 1 true 1 .Bandpass 2 true = none := by
  constructor
  · exact (pipeline_validation (fun _ => none) (fun _ => none) [] (some []) none
      1 0 1 true 1 .Bandpass 2 true).mpr (Or.inl rfl)
  · intro h
    have := (pipeline_validation (fun _ => none) (fun _ => none) [0] (some [1]) none
      1 0 1 true 1 .Bandpass 2 true).mp h
    rcases this with h' | h' | h'
    · exact absurd h' (by norm_num)
    · norm_num at h'
    · norm_num at h'

/-- **C10.** The denoiser never alters clean samples: at every index where
the artifact mask is false the output equals the input, and when fewer
than 2 samples are unmasked the whole signal is returned unchanged. -/
theorem advanced_denoise_frame (signal time : List ℚ) (mask : List Bool)
    (control : Option (List ℚ)) (aggressive : Bool) :
    (∀ i, i < signal.length → mask.getD i false = false →
      (advanced_denoise_signal signal time mask control aggressive).getD i 0
        = signal.getD i 0) ∧
    ((((List.range mask.length).filter fun i => mask.getD i false = false).length < 2) →
      advanced_denoise_signal signal time mask control aggressive = signal) := by
  unfold advanced_denoise_signal
  by_cases hany : mask.any id
  · rw [if_neg (by simp [hany])]
    by_cases hval : ((List.range mask.length).filter fun i =>
        mask.getD i false = false).length < 2
    · rw [if_pos hval]
      exact ⟨fun i _ _ => rfl, fun _ => rfl⟩
    · rw [if_neg hval]
      refine ⟨?_, fun hv => absurd hv hval⟩
      intro i hi hm
      rw [List.getD_eq_getElem _ _ (by simpa using hi)]
      simp only [List.getElem_map, List.getElem_range, hm]
      simp
  · rw [if_pos (by simpa using hany)]
    exact ⟨fun i _ _ => rfl, fun _ => rfl⟩

/-- Witness for C10 at a concrete input: the unmasked sample at index 0
is unchanged, and an all-masked short mask returns the signal whole. -/
theorem advanced_denoise_frame_witness :
    (advanced_denoise_signal [1, 2, 30, 4] [0, 1, 2, 3] [false, false, true, false]
        none false).getD 0 0 = ([1, 2, 30, 4] : List ℚ).getD 0 0 ∧
    advanced_denoise_signal [5, 6] [0, 1] [true, true] none false = [5, 6] := by
  constructor
  · exact (advanced_denoise_frame [1, 2, 30, 4] [0, 1, 2, 3]
      [false, false, true, false] none false).1 0 (by norm_num) (by decide)
  · exact (advanced_denoise_frame [5, 6] [0, 1] [true, true] none false).2 (by decide)

/-- **C8.** In the PSTH builder, an event whose window `[e-pre, e+post]`
extends past the trace's time range is excluded entirely by the validity
filter (so it contributes to no row and no bin — the returned matrix is
built by `filterMap` over the filtered events only), and when no event
survives the filter the builder reports a failure outcome (an error
message, not a PSTH). -/
theorem psth_window_exclusion (time signal event_times : List ℚ)
    (pre_time post_time bin_size : ℚ) (e : ℚ)
    (he : e - pre_time < npMin time ∨ npMax time < e + post_time) :
    e ∉ event_times.filter (psthWindowOk time pre_time post_time) ∧
    (∀ m, generate_psth time signal event_times pre_time post_time bin_size = .ok m →
      m = (event_times.filter (psthWindowOk time pre_time post_time)).filterMap
          (psthRow time signal (npArange (-pre_time) (post_time + bin_size) bin_size)
            bin_size pre_time post_time)) ∧
    ((∀ x ∈ event_times, psthWindowOk time pre_time post_time x = false) →
      ∀ m, generate_psth time signal event_times pre_time post_time bin_size ≠ .ok m) := by
  refine ⟨?_, ?_, ?_⟩
  · intro hmem
    have hok := (List.mem_filter.mp hmem).2
    rw [psthWindowOk, decide_eq_true_iff] at hok
    rcases he with h | h
    · linarith [hok.1]
    · linarith [hok.2]
  · intro m hm
    unfold generate_psth at hm
    split_ifs at hm
    exact (Except.ok.inj hm).symm
  · intro hall m hm
    unfold generate_psth at hm
    have hfil : event_times.filter (psthWindowOk time pre_time post_time) = [] :=
      List.filter_eq_nil_iff.mpr fun a ha => by simp [hall a ha]
    split_ifs at hm

/-- Witness for C8: the event at `t = 9` has its window outside the
range of a trace spanning `[0, 4]`, so it is excluded. -/
theorem psth_window_exclusion_witness :
    (9 : ℚ) ∉ ([9] : List ℚ).filter (psthWindowOk [0, 1, 2, 3, 4] 1 1) :=
  (psth_window_exclusion [0, 1, 2, 3, 4] [0, 0, 5, 0, 0] [9] 1 1 (1/2) 9
    (Or.inr (by norm_num [npMax]))).1

/-! ## Length bookkeeping through the pipeline stages -/

theorem dffStage_length (l : List ℚ) : (dffStage l).length = l.length := by
  simp [dffStage]

theorem fit_bleaching_correction_length (s c : List ℚ) (h : c.length = s.length) :
    (fit_bleaching_correction s c).length = s.length := by
  unfold fit_bleaching_correction
  split_ifs with h1 h2 h3
  · simp
  · simp [h]
  · simp [h]
  · show (c.map fun x => (linregress c s).1 * x + (linregress c s).2).length = s.length
    rw [List.length_map, h]

theorem pipelineFilterStage_fst_length (core : List ℚ → Option (List ℚ))
    (s : List ℚ) (ctrl : Option (List ℚ)) (fs lo hi : ℚ) (ft : FilterType) (ord : ℕ)
    (hcore : ∀ l out, core l = some out → out.length = l.length) :
    (pipelineFilterStage core s ctrl fs lo hi ft ord).1.length = s.length := by
  cases ft <;>
    first
    | rfl
    | exact butter_filter_length _ _ _ _ _ hcore

theorem pipelineFilterStage_snd_length (core : List ℚ → Option (List ℚ))
    (s : List ℚ) (ctrl : Option (List ℚ)) (fs lo hi : ℚ) (ft : FilterType) (ord : ℕ)
    (N : ℕ) (hcore : ∀ l out, core l = some out → out.length = l.length)
    (hctrl : ∀ c, ctrl = some c → c.length = N) :
    ∀ c', (pipelineFilterStage core s ctrl fs lo hi ft ord).2 = some c' → c'.length = N := by
  intro c' h
  cases ft <;> simp only [pipelineFilterStage] at h <;>
    first
    | exact hctrl c' h
    | · rcases Option.map_eq_some'.mp h with ⟨c, hc, rfl⟩
        rw [butter_filter_length _ _ _ _ _ hcore]
        exact hctrl c hc

theorem pipelineMotionStage_length (sig : List ℚ) (ctrl : Option (List ℚ))
    (h : ∀ c, ctrl = some c → c.length = sig.length) :
    (pipelineMotionStage sig ctrl).length = sig.length := by
  cases hc : ctrl with
  | none => rfl
  | some c =>
    simp only [pipelineMotionStage]
    rw [List.length_map, List.length_zip,
      fit_bleaching_correction_length sig c (h c hc)]
    simp

theorem pipelineDriftStage_length (driftFit : List ℚ → Option (List ℚ))
    (dc : Bool) (mc : List ℚ)
    (hdrift : ∀ l out, driftFit l = some out → out.length = l.length) :
    (pipelineDriftStage driftFit dc mc).1.length = mc.length ∧
    ∀ d, (pipelineDriftStage driftFit dc mc).2 = some d → d.length = mc.length := by
  unfold pipelineDriftStage
  split_ifs with h
  · cases hf : driftFit mc with
    | none => simp
    | some curve =>
      have hlen := hdrift mc curve hf
      constructor
      · simp [hlen]
      · intro d hd
        simp only [Option.some.injEq] at hd
        rw [← hd]
        exact hlen
  · simp

/-- The six projections of `pipelineFull`, by definitional unfolding. -/
theorem pipelineFull_eq (core driftFit : List ℚ → Option (List ℚ))
    (t s : List ℚ) (c : Option (List ℚ)) (fs lo hi : ℚ) (dc : Bool)
    (ft : FilterType) (ord : ℕ) (frs : Bool) :
    pipelineFull core driftFit t s c fs lo hi dc ft ord frs =
      { time := t
        dff := dffStage (pipelineDriftStage driftFit dc (pipelineMotionStage
          (pipelineFilterStage core s c fs lo hi ft ord).1
          (pipelineFilterStage core s c fs lo hi ft ord).2)).1
        raw1 := if frs then (pipelineFilterStage core s c fs lo hi ft ord).1 else s
        raw2 := if frs then (pipelineFilterStage core s c fs lo hi ft ord).2 else c
        drift := (pipelineDriftStage driftFit dc (pipelineMotionStage
          (pipelineFilterStage core s c fs lo hi ft ord).1
          (pipelineFilterStage core s c fs lo hi ft ord).2)).2
        mask := match c with
          | some ctrl => detect_artifacts ctrl 3
          | none => List.replicate s.length false } := rfl

theorem pipelineFull_lengths (core driftFit : List ℚ → Option (List ℚ))
    (t s : List ℚ) (c : Option (List ℚ)) (fs lo hi : ℚ) (dc : Bool)
    (ft : FilterType) (ord : ℕ) (frs : Bool) (N : ℕ)
    (hcore : ∀ l out, core l = some out → out.length = l.length)
    (hdrift : ∀ l out, driftFit l = some out → out.length = l.length)
    (htime : t.length = N) (hsig : s.length = N)
    (hctrl : ∀ ctrl, c = some ctrl → ctrl.length = N) :
    (pipelineFull core driftFit t s c fs lo hi dc ft ord frs).time.length = N ∧
    (pipelineFull core driftFit t s c fs lo hi dc ft ord frs).dff.length = N ∧
    (pipelineFull core driftFit t s c fs lo hi dc ft ord frs).raw1.length = N ∧
    (∀ r2, (pipelineFull core driftFit t s c fs lo hi dc ft ord frs).raw2 = some r2 →
      r2.length = N) ∧
    (∀ d, (pipelineFull core driftFit t s c fs lo hi dc ft ord frs).drift = some d →
      d.length = N) ∧
    (pipelineFull core driftFit t s c fs lo hi dc ft ord frs).mask.length = N := by
  have hf1 : (pipelineFilterStage core s c fs lo hi ft ord).1.length = N := by
    rw [pipelineFilterStage_fst_length core s c fs lo hi ft ord hcore]
    exact hsig
  have hf2 := pipelineFilterStage_snd_length core s c fs lo hi ft ord N hcore hctrl
  have hmc : (pipelineMotionStage (pipelineFilterStage core s c fs lo hi ft ord).1
      (pipelineFilterStage core s c fs lo hi ft ord).2).length = N := by
    rw [pipelineMotionStage_length]
    · exact hf1
    · intro c' hc'
      rw [hf2 c' hc', hf1]
  have hd := pipelineDriftStage_length driftFit dc (pipelineMotionStage
      (pipelineFilterStage core s c fs lo hi ft ord).1
      (pipelineFilterStage core s c fs lo hi ft ord).2) hdrift
  rw [pipelineFull_eq]
  refine ⟨htime, ?_, ?_, ?_, ?_, ?_⟩
  · rw [dffStage_length, hd.1, hmc]
  · split_ifs with h
    · exact hf1
    · exact hsig
  · intro r2 h
    split_ifs at h with hfrs
    · exact hf2 r2 h
    · exact hctrl r2 h
  · intro d h
    rw [hd.2 d h, hmc]
  · cases hc : c with
    | none => simpa using hsig
    | some ctrl =>
      simp only [detect_artifacts_length]
      exact hctrl ctrl hc

/-- **C2.** Decimation alignment: on a valid call with all input arrays of
length `N` and stride `k ≥ 1`, the pipeline succeeds and every returned
array has length `⌈N/k⌉ = (N+k-1)/k`, with element `i` equal to element
`i·k` of the corresponding full-length pre-decimation array of
`pipelineFull` — for `time`, `dff`, `raw1`, the artifact mask, and (when
present) `raw2` and the baseline drift curve. -/
theorem pipeline_decimation_alignment (core driftFit : List ℚ → Option (List ℚ))
    (time_raw signal_raw : List ℚ) (control_raw : Option (List ℚ))
    (fs lo hi : ℚ) (dc : Bool) (k : ℕ) (ft : FilterType) (ord : ℕ) (frs : Bool)
    (N : ℕ)
    (hcore : ∀ l out, core l = some out → out.length = l.length)
    (hdrift : ∀ l out, driftFit l = some out → out.length = l.length)
    (htime : time_raw.length = N) (hsig : signal_raw.length = N) (hN : 0 < N)
    (hctrl : ∀ c, control_raw = some c → c.length = N)
    (hfs : 0 < fs) (hlh : lo < hi) (hk : 0 < k) :
    ∃ out, process_data_pipeline core driftFit time_raw (some signal_raw) control_raw
        fs lo hi dc k ft ord frs = some out ∧
      (out.time.length = (N + k - 1) / k ∧ out.dff.length = (N + k - 1) / k ∧
       out.raw1.length = (N + k - 1) / k ∧ out.mask.length = (N + k - 1) / k ∧
       (∀ r2, out.raw2 = some r2 → r2.length = (N + k - 1) / k) ∧
       (∀ d, out.drift = some d → d.length = (N + k - 1) / k)) ∧
      ((∀ i, out.time.getD i 0 = (pipelineFull core driftFit time_raw signal_raw
          control_raw fs lo hi dc ft ord frs).time.getD (i * k) 0) ∧
       (∀ i, out.dff.getD i 0 = (pipelineFull core driftFit time_raw signal_raw
          control_raw fs lo hi dc ft ord frs).dff.getD (i * k) 0) ∧
       (∀ i, out.raw1.getD i 0 = (pipelineFull core driftFit time_raw signal_raw
          control_raw fs lo hi dc ft ord frs).raw1.getD (i * k) 0) ∧
       (∀ i, out.mask.getD i false = (pipelineFull core driftFit time_raw signal_raw
          control_raw fs lo hi dc ft ord frs).mask.getD (i * k) false) ∧
       (∀ r2 f2, out.raw2 = some r2 → (pipelineFull core driftFit time_raw signal_raw
          control_raw fs lo hi dc ft ord frs).raw2 = some f2 →
          ∀ i, r2.getD i 0 = f2.getD (i * k) 0) ∧
       (∀ d fd, out.drift = some d → (pipelineFull core driftFit time_raw signal_raw
          control_raw fs lo hi dc ft ord frs).drift = some fd →
          ∀ i, d.getD i 0 = fd.getD (i * k) 0)) := by
  have hfac : max 1 k = k := Nat.max_eq_right hk
  have hne : signal_raw ≠ [] := by
    intro h
    rw [h] at hsig
    simp at hsig
    omega
  have hlens := pipelineFull_lengths core driftFit time_raw signal_raw control_raw
    fs lo hi dc ft ord frs N hcore hdrift htime hsig hctrl
  unfold process_data_pipeline
  rw [if_neg (by simpa using hne), if_neg (not_le.mpr hfs), if_neg (not_le.mpr hlh), hfac]
  simp only [Option.getD_some]
  refine ⟨_, rfl, ?_, ?_⟩
  · dsimp only
    refine ⟨?_, ?_, ?_, ?_, ?_, ?_⟩
    · rw [everyKth_length k hk, hlens.1]
    · rw [everyKth_length k hk, hlens.2.1]
    · rw [everyKth_length k hk, hlens.2.2.1]
    · rw [everyKth_length k hk, hlens.2.2.2.2.2]
    · intro r2 h
      rcases Option.map_eq_some'.mp h with ⟨f2, hf2, rfl⟩
      rw [everyKth_length k hk, hlens.2.2.2.1 f2 hf2]
    · intro d h
      rcases Option.map_eq_some'.mp h with ⟨fd, hfd, rfl⟩
      rw [everyKth_length k hk, hlens.2.2.2.2.1 fd hfd]
  · dsimp only
    refine ⟨fun i => everyKth_getD k hk _ 0 i, fun i => everyKth_getD k hk _ 0 i,
      fun i => everyKth_getD k hk _ 0 i, fun i => everyKth_getD k hk _ false i, ?_, ?_⟩
    · intro r2 f2 h2 hf2 i
      rw [hf2] at h2
      simp only [Option.map_some', Option.some.injEq] at h2
      rw [← h2]
      exact everyKth_getD k hk f2 0 i
    · intro d fd hd hfd i
      rw [hfd] at hd
      simp only [Option.map_some', Option.some.injEq] at hd
      rw [← hd]
      exact everyKth_getD k hk fd 0 i

/-- Witness for C2 at a concrete input (`N = 5`, `k = 2`, identity filter
core, zero drift fit). -/
theorem pipeline_decimation_alignment_witness :
    ∃ out, process_data_pipeline (fun l => some l) (fun l => some (l.map fun _ => 0))
        [0, 1, 2, 3, 4] (some [10, 20, 30, 40, 50]) (some [1, 1, 1, 2, 1])
        10 1 4 true 2 .Bandpass 2 true = some out ∧
      (out.time.length = (5 + 2 - 1) / 2 ∧ out.dff.length = (5 + 2 - 1) / 2 ∧
       out.raw1.length = (5 + 2 - 1) / 2 ∧ out.mask.length = (5 + 2 - 1) / 2 ∧
       (∀ r2, out.raw2 = some r2 → r2.length = (5 + 2 - 1) / 2) ∧
       (∀ d, out.drift = some d → d.length = (5 + 2 - 1) / 2)) ∧
      ((∀ i, out.time.getD i 0 = (pipelineFull (fun l => some l)
          (fun l => some (l.map fun _ => 0)) [0, 1, 2, 3, 4] [10, 20, 30, 40, 50]
          (some [1, 1, 1, 2, 1]) 10 1 4 true .Bandpass 2 true).time.getD (i * 2) 0) ∧
       (∀ i, out.dff.getD i 0 = (pipelineFull (fun l => some l)
          (fun l => some (l.map fun _ => 0)) [0, 1, 2, 3, 4] [10, 20, 30, 40, 50]
          (some [1, 1, 1, 2, 1]) 10 1 4 true .Bandpass 2 true).dff.getD (i * 2) 0) ∧
       (∀ i, out.raw1.getD i 0 = (pipelineFull (fun l => some l)
          (fun l => some (l.map fun _ => 0)) [0, 1, 2, 3, 4] [10, 20, 30, 40, 50]
          (some [1, 1, 1, 2, 1]) 10 1 4 true .Bandpass 2 true).raw1.getD (i * 2) 0) ∧
       (∀ i, out.mask.getD i false = (pipelineFull (fun l => some l)
          (fun l => some (l.map fun _ => 0)) [0, 1, 2, 3, 4] [10, 20, 30, 40, 50]
          (some [1, 1, 1, 2, 1]) 10 1 4 true .Bandpass 2 true).mask.getD (i * 2) false) ∧
       (∀ r2 f2, out.raw2 = some r2 → (pipelineFull (fun l => some l)
          (fun l => some (l.map fun _ => 0)) [0, 1, 2, 3, 4] [10, 20, 30, 40, 50]
          (some [1, 1, 1, 2, 1]) 10 1 4 true .Bandpass 2 true).raw2 = some f2 →
          ∀ i, r2.getD i 0 = f2.getD (i * 2) 0) ∧
       (∀ d fd, out.drift = some d → (pipelineFull (fun l => some l)
          (fun l => some (l.map fun _ => 0)) [0, 1, 2, 3, 4] [10, 20, 30, 40, 50]
          (some [1, 1, 1, 2, 1]) 10 1 4 true .Bandpass 2 true).drift = some fd →
          ∀ i, d.getD i 0 = fd.getD (i * 2) 0)) :=
  pipeline_decimation_alignment (fun l => some l) (fun l => some (l.map fun _ => 0))
    [0, 1, 2, 3, 4] [10, 20, 30, 40, 50] (some [1, 1, 1, 2, 1]) 10 1 4 true 2
    .Bandpass 2 true 5
    (fun l out h => by injection h with h'; rw [← h'])
    (fun l out h => by injection h with h'; rw [← h']; simp)
    rfl rfl (by norm_num)
    (fun c h => by
      injection h with h'
      rw [← h']
      rfl)
    (by norm_num) (by norm_num) (by norm_num)

/-! ## Constant-trace behaviour of the pipeline (C4) -/

theorem sortQ_cons (x : ℚ) (l : List ℚ) : sortQ (x :: l) = insertSorted x (sortQ l) := rfl

theorem insertSorted_replicate (c : ℚ) (m : ℕ) :
    insertSorted c (List.replicate m c) = List.replicate (m + 1) c := by
  cases m with
  | zero => rfl
  | succ j => simp [List.replicate_succ, insertSorted]

theorem sortQ_replicate (c : ℚ) (n : ℕ) :
    sortQ (List.replicate n c) = List.replicate n c := by
  induction n with
  | zero => rfl
  | succ m ih =>
    rw [List.replicate_succ, sortQ_cons, ih, insertSorted_replicate]
    simp [List.replicate_succ]

theorem getD_replicate_of_lt {α : Type} (a d : α) {n i : ℕ} (h : i < n) :
    (List.replicate n a).getD i d = a := by
  rw [List.getD_eq_getElem _ _ (by simpa using h)]
  simp

theorem percentile10_replicate (c : ℚ) (n : ℕ) (hn : 0 < n) :
    percentile10 (List.replicate n c) = c := by
  cases n with
  | zero => omega
  | succ m =>
    rw [List.replicate_succ]
    simp only [percentile10]
    rw [← List.replicate_succ, sortQ_replicate]
    rw [getD_replicate_of_lt _ _ (by simp; omega), getD_replicate_of_lt _ _ (by simp)]
    ring

theorem dffStage_replicate_zero (n : ℕ) :
    dffStage (List.replicate n 0) = List.replicate n (-100) := by
  unfold dffStage
  rw [List.map_replicate]
  cases n with
  | zero => rfl
  | succ m =>
    rw [percentile10_replicate 0 (m + 1) (Nat.succ_pos m)]
    norm_num

theorem mem_everyKth {α : Type} (k : ℕ) {a : α} :
    ∀ {l : List α}, a ∈ everyKth k l → a ∈ l := by
  intro l
  induction l using everyKth.induct k with
  | case1 => simp [everyKth]
  | case2 x rest ih =>
    intro h
    rw [everyKth] at h
    rcases List.mem_cons.mp h with h1 | h2
    · simp [h1]
    · exact List.mem_cons_of_mem _ (List.mem_of_mem_drop (ih h2))

theorem everyKth_replicate {α : Type} (k : ℕ) (hk : 0 < k) (c : α) (n : ℕ) :
    everyKth k (List.replicate n c) = List.replicate ((n + k - 1) / k) c := by
  apply List.eq_replicate_iff.mpr
  constructor
  · rw [everyKth_length k hk, List.length_replicate]
  · intro b hb
    exact List.eq_of_mem_replicate (mem_everyKth k hb)

/-- Modelled from the spec: section 4.2 describes the filter stage as a
zero-phase Butterworth band-pass; an exact band-pass filter has zero gain
at DC, so on a constant trace its output is the zero trace.  This models
the `scipy.signal.butter`/`sosfiltfilt` call (absent from src/, being
library code) in the constant-input scenario of the claim. -/
def idealBandpassDC : List ℚ → Option (List ℚ) :=
  fun data => some (List.replicate data.length 0)

theorem butter_filter_idealBandpassDC (c fs low high : ℚ) (n ord : ℕ)
    (hn : max (ord * 6) 9 ≤ n) (hl : 0 < low) (hlf : low < fs / 2)
    (hh : 0 < high) (hhf : high < fs / 2) :
    butter_filter idealBandpassDC (List.replicate n c) (.pair low high) fs ord
      = List.replicate n 0 := by
  unfold butter_filter
  rw [if_neg (by simp; omega)]
  rw [if_neg (by simp [Cutoff.valid]; exact ⟨hl, hlf, hh, hhf⟩)]
  rw [if_neg (by simp; omega)]
  simp [idealBandpassDC]

/-- The dF/F trace the pipeline produces on a constant input of length
`n` (with the spec-modelled ideal band-pass core, no control channel, no
drift correction): uniformly `-100`, because the detrended trace is
identically zero, so `F0 = 0` is clamped to `ε = 1e-9` and every sample
becomes `(0 - ε)/ε · 100 = -100`.  Shared by the C4 counterexample and
amended theorem. -/
theorem pipeline_constant_dff (time_raw : List ℚ) (driftFit : List ℚ → Option (List ℚ))
    (c fs low high : ℚ) (n ord k : ℕ)
    (hn : max (ord * 6) 9 ≤ n) (hfs : 0 < fs) (hl : 0 < low) (hlh : low < high)
    (hh : high < fs / 2) (hk : 0 < k) :
    ∃ out, process_data_pipeline idealBandpassDC driftFit time_raw
        (some (List.replicate n c)) none fs low high false k .Bandpass ord true
        = some out ∧
      out.dff = List.replicate ((n + k - 1) / k) (-100) := by
  have hn0 : 0 < n := lt_of_lt_of_le (by norm_num) (le_trans (le_max_right _ _) hn)
  have hne : List.replicate n c ≠ [] := by
    intro h
    have := congrArg List.length h
    simp at this
    omega
  unfold process_data_pipeline
  rw [if_neg (by simpa using hne), if_neg (not_le.mpr hfs), if_neg (not_le.mpr hlh),
    Nat.max_eq_right hk]
  simp only [Option.getD_some]
  refine ⟨_, rfl, ?_⟩
  dsimp only
  rw [pipelineFull_eq]
  dsimp only
  have hfilt : pipelineFilterStage idealBandpassDC (List.replicate n c) none fs low high
      .Bandpass ord = (List.replicate n 0, none) := by
    simp only [pipelineFilterStage, Option.map_none']
    rw [butter_filter_idealBandpassDC c fs low high n ord hn hl
      (lt_trans hlh hh) (lt_of_le_of_lt (le_of_lt hl) hlh) hh]
  rw [hfilt]
  have hmot : pipelineMotionStage (List.replicate n 0) none = List.replicate n 0 := rfl
  have hdr : (pipelineDriftStage driftFit false (List.replicate n 0)).1
      = List.replicate n 0 := by simp [pipelineDriftStage]
  rw [hmot, hdr, dffStage_replicate_zero, everyKth_replicate k hk]

/-- **C4 (counterexample).** A constant trace of value 5, length 20, with
the valid Bandpass configuration `low = 1 < high = 4 < fs/2 = 5`: the
pipeline's dF/F output is uniformly `-100`, not approximately `0`. -/
theorem pipeline_constant_counterexample :
    (process_data_pipeline idealBandpassDC (fun _ => none)
        [0, 1, 2, 3, 4, 5, 6, 7, 8, 9, 10, 11, 12, 13, 14, 15, 16, 17, 18, 19]
        (some (List.replicate 20 5)) none 10 1 4 false 1 .Bandpass 2 true).map
      PipelineOutput.dff = some (List.replicate 20 (-100)) ∧
    ((-100 : ℚ) ≠ 0) := by
  constructor
  · rcases pipeline_constant_dff
        [0, 1, 2, 3, 4, 5, 6, 7, 8, 9, 10, 11, 12, 13, 14, 15, 16, 17, 18, 19]
        (fun _ => none) 5 10 1 4 20 2 1 (by norm_num) (by norm_num) (by norm_num)
        (by norm_num) (by norm_num) (by norm_num) with ⟨out, h1, h2⟩
    rw [h1]
    simp only [Option.map_some']
    rw [h2]
  · norm_num

/-- **C4 (amended).** On every constant-valued trace with a valid Bandpass
configuration (`0 < low < high < fs/2`, `fs > 0`, length at least the
filter's minimum `max(6·order, 9)`), the pipeline's dF/F output is
uniformly `-100` (not `≈ 0`): band-pass filtering removes the constant
(DC) component, the detrended trace is identically zero, `F0 = 0` is
clamped to `ε`, and each sample becomes `(0 - ε)/ε · 100 = -100`. -/
theorem pipeline_constant_trace (time_raw : List ℚ) (driftFit : List ℚ → Option (List ℚ))
    (c fs low high : ℚ) (n ord k : ℕ)
    (hn : max (ord * 6) 9 ≤ n) (hfs : 0 < fs) (hl : 0 < low) (hlh : low < high)
    (hh : high < fs / 2) (hk : 0 < k) :
    ∃ out, process_data_pipeline idealBandpassDC driftFit time_raw
        (some (List.replicate n c)) none fs low high false k .Bandpass ord true
        = some out ∧
      out.dff = List.replicate ((n + k - 1) / k) (-100) :=
  pipeline_constant_dff time_raw driftFit c fs low high n ord k hn hfs hl hlh hh hk

/-- Witness for the amended C4 at a concrete input. -/
theorem pipeline_constant_trace_witness :
    ∃ out, process_data_pipeline idealBandpassDC (fun _ => none) [0, 1, 2]
        (some (List.replicate 12 7)) none 10 1 4 false 1 .Bandpass 2 true
        = some out ∧
      out.dff = List.replicate ((12 + 1 - 1) / 1) (-100) :=
  pipeline_constant_trace [0, 1, 2] (fun _ => none) 7 10 1 4 12 2 1 (by norm_num)
    (by norm_num) (by norm_num) (by norm_num) (by norm_num) (by norm_num)

/-! ## Helpers for the peak-metrics characterization (C5) -/

theorem getD_take {α : Type} (l : List α) (m j : ℕ) (d : α) (h : j < m) :
    (l.take m).getD j d = l.getD j d := by
  induction l generalizing m j with
  | nil => simp
  | cons x xs ih =>
    cases m with
    | zero => omega
    | succ m' =>
      cases j with
      | zero => simp
      | succ j' =>
        simp only [List.take_succ_cons, List.getD_cons_succ]
        exact ih m' j' (by omega)

theorem pySlice_getD {α : Type} (l : List α) (a b j : ℕ) (d : α) (h : j < b - a) :
    (pySlice l a b).getD j d = l.getD (a + j) d := by
  rw [pySlice, getD_take _ _ _ _ h, getD_drop]

theorem pySlice_length {α : Type} (l : List α) (a b : ℕ) :
    (pySlice l a b).length = min (b - a) (l.length - a) := by
  simp [pySlice]

theorem mem_npWhereGe (seg : List ℚ) (h : ℚ) (j : ℕ) :
    j ∈ npWhereGe seg h ↔ j < seg.length ∧ h ≤ seg.getD j 0 := by
  simp [npWhereGe]

theorem npWhereGe_sorted (seg : List ℚ) (h : ℚ) :
    (npWhereGe seg h).Pairwise (· < ·) :=
  (List.pairwise_lt_range _).filter _

theorem headD_least_of_sorted {l : List ℕ} (hs : l.Pairwise (· < ·)) (hne : l ≠ []) :
    l.headD 0 ∈ l ∧ ∀ a ∈ l, l.headD 0 ≤ a := by
  cases l with
  | nil => exact absurd rfl hne
  | cons x xs =>
    refine ⟨by simp, ?_⟩
    intro a ha
    rcases List.mem_cons.mp ha with rfl | ha'
    · simp
    · exact le_of_lt ((List.pairwise_cons.mp hs).1 a ha')

theorem getLastD_greatest_of_sorted {l : List ℕ} (hs : l.Pairwise (· < ·))
    (hne : l ≠ []) : l.getLastD 0 ∈ l ∧ ∀ a ∈ l, a ≤ l.getLastD 0 := by
  induction l with
  | nil => exact absurd rfl hne
  | cons x xs ih =>
    cases xs with
    | nil => exact ⟨by simp, by simp⟩
    | cons y ys =>
      have htail := ih (List.Pairwise.of_cons hs) (by simp)
      have hlast : (x :: y :: ys).getLastD 0 = (y :: ys).getLastD 0 := by
        simp [List.getLastD_cons]
      rw [hlast]
      refine ⟨List.mem_cons_of_mem _ htail.1, ?_⟩
      intro a ha
      rcases List.mem_cons.mp ha with rfl | ha'
      · exact le_of_lt ((List.pairwise_cons.mp hs).1 _ htail.1)
      · exact htail.2 a ha'

theorem anyNonzero_of_mem {l : List ℕ} {a : ℕ} (ha : a ∈ l) (h0 : a ≠ 0) :
    anyNonzero l = true := by
  simp only [anyNonzero, List.any_eq_true]
  exact ⟨a, ha, by simpa using h0⟩

/-- `base_level = min(signal[pre_v_idx], signal[post_v_idx])`
(analysis/peak_analysis.py, line 40). -/
def baseLevel (signal : List ℚ) (v₁ v₂ : ℕ) : ℚ :=
  min (signal.getD v₁ 0) (signal.getD v₂ 0)

/-- `half_height = base_level + (peak_height - base_level)/2`
(analysis/peak_analysis.py, line 42). -/
def halfHeight (signal : List ℚ) (v₁ v₂ p : ℕ) : ℚ :=
  baseLevel signal v₁ v₂ + (signal.getD p 0 - baseLevel signal v₁ v₂) / 2

/-- **C5 (amended).** For a peak `p` whose nearest preceding valley `v₁`
sits at a nonzero index and nearest following valley is `v₂` (a valley at
index 0 is treated as absent by the numpy truthiness test), with the peak
at least as high as both valleys: the engine uses
`baseline = min(valley levels)`, `half-height = baseline + (peak −
baseline)/2`, and reports FWHM/rise/decay times built from a rise
crossing `r` that is the **outermost** (earliest) index in `[v₁, p]` at
or above half-height and a decay crossing `d` that is the **outermost**
(latest) index in `[p, v₂]` at or above half-height — not the first
crossings scanning outward from the peak — and
`area = trapezoid(trace − baseline)` over `[v₁, v₂]`.  A peak lacking a
following valley, or whose preceding valleys all sit at index 0, gets the
all-NaN row.  `calculate_peak_metrics` maps this per-peak computation
over the peak index array. -/
theorem peak_metrics_characterization (valley_indices : List ℕ)
    (signal time : List ℚ) (p : ℕ) :
    (∀ v₁ v₂,
      valley_indices.Pairwise (· < ·) →
      v₁ ∈ valley_indices → v₂ ∈ valley_indices →
      v₁ < p → p < v₂ →
      (∀ v ∈ valley_indices, v < p → v ≤ v₁) →
      (∀ v ∈ valley_indices, p < v → v₂ ≤ v) →
      v₁ ≠ 0 → v₂ < signal.length →
      signal.getD v₁ 0 ≤ signal.getD p 0 →
      signal.getD v₂ 0 ≤ signal.getD p 0 →
      ∃ r d,
        peakMetricsOne valley_indices signal time p
          = some (time.getD d 0 - time.getD r 0,
                  time.getD p 0 - time.getD r 0,
                  time.getD d 0 - time.getD p 0,
                  trapezoid ((pySlice signal v₁ (v₂ + 1)).map fun s =>
                      s - baseLevel signal v₁ v₂) (pySlice time v₁ (v₂ + 1))) ∧
        v₁ ≤ r ∧ r ≤ p ∧ halfHeight signal v₁ v₂ p ≤ signal.getD r 0 ∧
        (∀ j, v₁ ≤ j → j < r → signal.getD j 0 < halfHeight signal v₁ v₂ p) ∧
        p ≤ d ∧ d ≤ v₂ ∧ halfHeight signal v₁ v₂ p ≤ signal.getD d 0 ∧
        (∀ j, d < j → j ≤ v₂ → signal.getD j 0 < halfHeight signal v₁ v₂ p)) ∧
    ((∀ v ∈ valley_indices, v < p → v = 0) ∨ (∀ v ∈ valley_indices, ¬ p < v) →
      peakMetricsOne valley_indices signal time p = none) ∧
    (∀ peak_indices, anyNonzero peak_indices = true →
      anyNonzero valley_indices = true →
      calculate_peak_metrics peak_indices valley_indices signal time
        = some (peak_indices.map (peakMetricsOne valley_indices signal time))) := by
  refine ⟨?_, ?_, ?_⟩
  · intro v₁ v₂ hsorted hv₁ hv₂ hv₁p hpv₂ hmax hmin h0 hlen hb1 hb2
    have hplen : p < signal.length := lt_trans hpv₂ hlen
    have hp0 : p ≠ 0 := by omega
    -- the nearest preceding valley is the last of the `< p` filter
    have hpre_sorted : (valley_indices.filter fun v => v < p).Pairwise (· < ·) :=
      hsorted.filter _
    have hv₁pre : v₁ ∈ valley_indices.filter fun v => v < p :=
      List.mem_filter.mpr ⟨hv₁, by simpa using hv₁p⟩
    have hpre_ne : (valley_indices.filter fun v => v < p) ≠ [] := by
      intro h
      rw [h] at hv₁pre
      simp at hv₁pre
    have hlastg := getLastD_greatest_of_sorted hpre_sorted hpre_ne
    have hpre_eq : (valley_indices.filter fun v => v < p).getLastD 0 = v₁ := by
      have hmem := List.mem_filter.mp hlastg.1
      exact le_antisymm (hmax _ hmem.1 (by simpa using hmem.2)) (hlastg.2 v₁ hv₁pre)
    -- the nearest following valley is the head of the `> p` filter
    have hfol_sorted : (valley_indices.filter fun v => p < v).Pairwise (· < ·) :=
      hsorted.filter _
    have hv₂fol : v₂ ∈ valley_indices.filter fun v => p < v :=
      List.mem_filter.mpr ⟨hv₂, by simpa using hpv₂⟩
    have hfol_ne : (valley_indices.filter fun v => p < v) ≠ [] := by
      intro h
      rw [h] at hv₂fol
      simp at hv₂fol
    have hheadl := headD_least_of_sorted hfol_sorted hfol_ne
    have hfol_eq : (valley_indices.filter fun v => p < v).headD 0 = v₂ := by
      have hmem := List.mem_filter.mp hheadl.1
      exact le_antisymm (hheadl.2 v₂ hv₂fol) (hmin _ hmem.1 (by simpa using hmem.2))
    have hanyPre : anyNonzero (valley_indices.filter fun v => v < p) = true :=
      anyNonzero_of_mem hv₁pre h0
    have hanyFol : anyNonzero (valley_indices.filter fun v => p < v) = true :=
      anyNonzero_of_mem hv₂fol (by omega)
    -- half-height is below the peak level
    have hbase_le : baseLevel signal v₁ v₂ ≤ signal.getD p 0 :=
      le_trans (min_le_left _ _) hb1
    have hhalf_le : halfHeight signal v₁ v₂ p ≤ signal.getD p 0 := by
      unfold halfHeight
      linarith
    -- the rise-index list
    have wlen1 : (pySlice signal v₁ (p + 1)).length = p + 1 - v₁ := by
      rw [pySlice_length]
      omega
    have hmemR : ∀ x, (x ∈ (npWhereGe (pySlice signal v₁ (p + 1))
          (halfHeight signal v₁ v₂ p)).map (· + v₁)) ↔
        (v₁ ≤ x ∧ x ≤ p ∧ halfHeight signal v₁ v₂ p ≤ signal.getD x 0) := by
      intro x
      constructor
      · intro hx
        rcases List.mem_map.mp hx with ⟨j, hj, rfl⟩
        rw [mem_npWhereGe, wlen1] at hj
        have hget := pySlice_getD signal v₁ (p + 1) j 0 (by omega)
        rw [hget] at hj
        have hcomm : v₁ + j = j + v₁ := Nat.add_comm _ _
        rw [hcomm] at hj
        exact ⟨by omega, by omega, hj.2⟩
      · intro ⟨h1, h2, h3⟩
        refine List.mem_map.mpr ⟨x - v₁, ?_, by omega⟩
        rw [mem_npWhereGe, wlen1]
        refine ⟨by omega, ?_⟩
        rw [pySlice_getD signal v₁ (p + 1) _ 0 (by omega)]
        have : v₁ + (x - v₁) = x := by omega
        rw [this]
        exact h3
    have hRsorted : ((npWhereGe (pySlice signal v₁ (p + 1))
        (halfHeight signal v₁ v₂ p)).map (· + v₁)).Pairwise (· < ·) :=
      (npWhereGe_sorted _ _).map _ (fun a b h => by omega)
    have hpR : p ∈ (npWhereGe (pySlice signal v₁ (p + 1))
        (halfHeight signal v₁ v₂ p)).map (· + v₁) :=
      (hmemR p).mpr ⟨le_of_lt hv₁p, le_refl p, hhalf_le⟩
    have hRne : (npWhereGe (pySlice signal v₁ (p + 1))
        (halfHeight signal v₁ v₂ p)).map (· + v₁) ≠ [] := by
      intro h
      rw [h] at hpR
      simp at hpR
    have hrhead := headD_least_of_sorted hRsorted hRne
    have hanyR : anyNonzero ((npWhereGe (pySlice signal v₁ (p + 1))
        (halfHeight signal v₁ v₂ p)).map (· + v₁)) = true :=
      anyNonzero_of_mem hpR hp0
    -- the decay-index list
    have wlen2 : (pySlice signal p (v₂ + 1)).length = v₂ + 1 - p := by
      rw [pySlice_length]
      omega
    have hmemD : ∀ x, (x ∈ (npWhereGe (pySlice signal p (v₂ + 1))
          (halfHeight signal v₁ v₂ p)).map (· + p)) ↔
        (p ≤ x ∧ x ≤ v₂ ∧ halfHeight signal v₁ v₂ p ≤ signal.getD x 0) := by
      intro x
      constructor
      · intro hx
        rcases List.mem_map.mp hx with ⟨j, hj, rfl⟩
        rw [mem_npWhereGe, wlen2] at hj
        have hget := pySlice_getD signal p (v₂ + 1) j 0 (by omega)
        rw [hget] at hj
        have hcomm : p + j = j + p := Nat.add_comm _ _
        rw [hcomm] at hj
        exact ⟨by omega, by omega, hj.2⟩
      · intro ⟨h1, h2, h3⟩
        refine List.mem_map.mpr ⟨x - p, ?_, by omega⟩
        rw [mem_npWhereGe, wlen2]
        refine ⟨by omega, ?_⟩
        rw [pySlice_getD signal p (v₂ + 1) _ 0 (by omega)]
        have : p + (x - p) = x := by omega
        rw [this]
        exact h3
    have hDsorted : ((npWhereGe (pySlice signal p (v₂ + 1))
        (halfHeight signal v₁ v₂ p)).map (· + p)).Pairwise (· < ·) :=
      (npWhereGe_sorted _ _).map _ (fun a b h => by omega)
    have hpD : p ∈ (npWhereGe (pySlice signal p (v₂ + 1))
        (halfHeight signal v₁ v₂ p)).map (· + p) :=
      (hmemD p).mpr ⟨le_refl p, le_of_lt hpv₂, hhalf_le⟩
    have hDne : (npWhereGe (pySlice signal p (v₂ + 1))
        (halfHeight signal v₁ v₂ p)).map (· + p) ≠ [] := by
      intro h
      rw [h] at hpD
      simp at hpD
    have hdlast := getLastD_greatest_of_sorted hDsorted hDne
    have hanyD : anyNonzero ((npWhereGe (pySlice signal p (v₂ + 1))
        (halfHeight signal v₁ v₂ p)).map (· + p)) = true :=
      anyNonzero_of_mem hpD hp0
    -- assemble
    refine ⟨((npWhereGe (pySlice signal v₁ (p + 1))
        (halfHeight signal v₁ v₂ p)).map (· + v₁)).headD 0,
      ((npWhereGe (pySlice signal p (v₂ + 1))
        (halfHeight signal v₁ v₂ p)).map (· + p)).getLastD 0, ?_, ?_⟩
    · dsimp only [peakMetricsOne]
      rw [hpre_eq, hfol_eq]
      rw [if_neg (by rw [not_or, not_not, not_not]; exact ⟨hanyPre, hanyFol⟩)]
      rw [if_neg (by rw [not_or, not_not, not_not]; exact ⟨hanyR, hanyD⟩)]
      rfl
    · obtain ⟨hr1, hr2, hr3⟩ := (hmemR _).mp hrhead.1
      obtain ⟨hd1, hd2, hd3⟩ := (hmemD _).mp hdlast.1
      refine ⟨hr1, hr2, hr3, ?_, hd1, hd2, hd3, ?_⟩
      · intro j hj1 hj2
        by_contra hge
        push_neg at hge
        have hjR := (hmemR j).mpr ⟨hj1, by omega, hge⟩
        have := hrhead.2 j hjR
        omega
      · intro j hj1 hj2
        by_contra hge
        push_neg at hge
        have hjD := (hmemD j).mpr ⟨by omega, hj2, hge⟩
        have := hdlast.2 j hjD
        omega
  · intro h
    unfold peakMetricsOne
    rw [if_pos]
    rcases h with h | h
    · left
      simp only [anyNonzero, List.any_eq_true, not_exists]
      intro x
      rintro ⟨hxmem, hx0⟩
      have hmem := List.mem_filter.mp hxmem
      have := h x hmem.1 (by simpa using hmem.2)
      simp [this] at hx0
    · right
      have : valley_indices.filter (fun v => p < v) = [] :=
        List.filter_eq_nil_iff.mpr fun a ha => by simpa using h a ha
      rw [this]
      simp [anyNonzero]
  · intro peaks hpk hval
    unfold calculate_peak_metrics
    rw [if_neg (by simp [hpk]), if_pos hval]

/-- **C5 (counterexample).** Trace `[5, 0, 6, 1, 10, 0]` with valleys at
indices 1 and 5 and a peak at index 4 (unit-spaced time): the baseline is
0 and the half-height is 5; the trace crosses half-height between indices
3 (value 1 < 5) and 4 (value 10 ≥ 5), so a rise crossing that is "the
first index scanning outward from the peak toward the preceding valley
where the trace crosses half-height" is index 3 or 4, giving rise time
`t₄ - t₃ = 1` or `t₄ - t₄ = 0`.  The engine instead reports rise time 2
(its rise index is 2, the earliest above-half sample in the window,
beyond the interior dip below half-height at index 3). -/
theorem peak_metrics_counterexample :
    calculate_peak_metrics [4] [1, 5] [5, 0, 6, 1, 10, 0] [0, 1, 2, 3, 4, 5]
      = some [some (2, 2, 0, 17)] ∧
    ([5, 0, 6, 1, 10, 0] : List ℚ).getD 3 0 < halfHeight [5, 0, 6, 1, 10, 0] 1 5 4 ∧
    halfHeight [5, 0, 6, 1, 10, 0] 1 5 4 ≤ ([5, 0, 6, 1, 10, 0] : List ℚ).getD 4 0 ∧
    ([0, 1, 2, 3, 4, 5] : List ℚ).getD 4 0 - ([0, 1, 2, 3, 4, 5] : List ℚ).getD 3 0 ≠ 2 ∧
    ([0, 1, 2, 3, 4, 5] : List ℚ).getD 4 0 - ([0, 1, 2, 3, 4, 5] : List ℚ).getD 4 0 ≠ 2 := by
  refine ⟨?_, ?_, ?_, ?_, ?_⟩
  · norm_num [calculate_peak_metrics, peakMetricsOne, anyNonzero, npWhereGe, pySlice,
      trapezoid, List.filter, List.range, List.range_succ, List.getD]
  · norm_num [halfHeight, baseLevel, List.getD]
  · norm_num [halfHeight, baseLevel, List.getD]
  · norm_num [List.getD]
  · norm_num [List.getD]

/-- Witness for the amended C5 at the same concrete input. -/
theorem peak_metrics_characterization_witness :
    ∃ r d,
      peakMetricsOne [1, 5] [5, 0, 6, 1, 10, 0] [0, 1, 2, 3, 4, 5] 4
        = some (([0, 1, 2, 3, 4, 5] : List ℚ).getD d 0
                  - ([0, 1, 2, 3, 4, 5] : List ℚ).getD r 0,
                ([0, 1, 2, 3, 4, 5] : List ℚ).getD 4 0
                  - ([0, 1, 2, 3, 4, 5] : List ℚ).getD r 0,
                ([0, 1, 2, 3, 4, 5] : List ℚ).getD d 0
                  - ([0, 1, 2, 3, 4, 5] : List ℚ).getD 4 0,
                trapezoid ((pySlice [5, 0, 6, 1, 10, 0] 1 (5 + 1)).map fun s =>
                    s - baseLevel [5, 0, 6, 1, 10, 0] 1 5)
                  (pySlice [0, 1, 2, 3, 4, 5] 1 (5 + 1))) ∧
      1 ≤ r ∧ r ≤ 4 ∧
      halfHeight [5, 0, 6, 1, 10, 0] 1 5 4 ≤ ([5, 0, 6, 1, 10, 0] : List ℚ).getD r 0 ∧
      (∀ j, 1 ≤ j → j < r →
        ([5, 0, 6, 1, 10, 0] : List ℚ).getD j 0 < halfHeight [5, 0, 6, 1, 10, 0] 1 5 4) ∧
      4 ≤ d ∧ d ≤ 5 ∧
      halfHeight [5, 0, 6, 1, 10, 0] 1 5 4 ≤ ([5, 0, 6, 1, 10, 0] : List ℚ).getD d 0 ∧
      (∀ j, d < j → j ≤ 5 →
        ([5, 0, 6, 1, 10, 0] : List ℚ).getD j 0 < halfHeight [5, 0, 6, 1, 10, 0] 1 5 4) :=
  (peak_metrics_characterization [1, 5] [5, 0, 6, 1, 10, 0] [0, 1, 2, 3, 4, 5] 4).1 1 5
    (by decide) (by decide) (by decide) (by decide) (by decide) (by decide) (by decide)
    (by decide) (by decide) (by norm_num [List.getD]) (by norm_num [List.getD])

/-! ## Helpers for the correlation round trip (C9) -/

theorem linspace_length (a b : ℚ) (n : ℕ) : (linspace a b n).length = n := by
  unfold linspace
  split_ifs with h
  · simp [h]
  · rw [List.length_map, List.length_range]

theorem resampled_length (time sig : List ℚ) :
    (resampled time sig).length = time.length := by
  simp [resampled, commonGrid, linspace_length]

theorem sum_map_nonneg {l : List ℚ} {f : ℚ → ℚ} (h : ∀ x ∈ l, 0 ≤ f x) :
    0 ≤ (l.map f).sum := by
  apply List.sum_nonneg
  intro x hx
  rcases List.mem_map.mp hx with ⟨y, hy, rfl⟩
  exact h y hy

theorem sum_map_pos {l : List ℚ} {f : ℚ → ℚ} (h0 : ∀ x ∈ l, 0 ≤ f x)
    {a : ℚ} (ha : a ∈ l) (hfa : 0 < f a) : 0 < (l.map f).sum := by
  induction l with
  | nil => simp at ha
  | cons x xs ih =>
    simp only [List.map_cons, List.sum_cons]
    rcases List.mem_cons.mp ha with rfl | ha'
    · have : 0 ≤ (xs.map f).sum :=
        sum_map_nonneg fun y hy => h0 y (List.mem_cons_of_mem _ hy)
      linarith
    · have hx : 0 ≤ f x := h0 x (by simp)
      have := ih (fun y hy => h0 y (List.mem_cons_of_mem _ hy)) ha'
      linarith

theorem exists_ne_mean {z : List ℚ}
    (h : ∃ a ∈ z, ∃ b ∈ z, a ≠ b) : ∃ x ∈ z, x ≠ mean z := by
  by_contra hc
  push_neg at hc
  rcases h with ⟨a, ha, b, hb, hab⟩
  exact hab ((hc a ha).trans (hc b hb).symm)

theorem two_le_length_of_two_ne {z : List ℚ}
    (h : ∃ a ∈ z, ∃ b ∈ z, a ≠ b) : 2 ≤ z.length := by
  rcases h with ⟨a, ha, b, hb, hab⟩
  rcases z with _ | ⟨x, _ | ⟨y, ys⟩⟩
  · simp at ha
  · simp at ha hb
    rw [ha, hb] at hab
    simp at hab
  · simp

/-- Sum over a mapped list as a `Finset.range` sum over `getD`. -/
theorem sum_map_eq_sum_range (z : List ℚ) (f : ℚ → ℚ) :
    (z.map f).sum = ∑ i ∈ Finset.range z.length, f (z.getD i 0) := by
  induction z with
  | nil => simp
  | cons x xs ih =>
    simp only [List.map_cons, List.sum_cons, List.length_cons, ih]
    rw [Finset.sum_range_succ']
    simp only [List.getD_cons_succ, List.getD_cons_zero]
    ring

theorem listRange_map_sum (n : ℕ) (f : ℕ → ℚ) :
    ((List.range n).map f).sum = ∑ i ∈ Finset.range n, f i := by
  induction n with
  | zero => simp
  | succ m ih =>
    rw [List.range_succ, List.map_append, List.sum_append, Finset.sum_range_succ, ih]
    simp

theorem zGet_natCast (z : List ℚ) (i : ℕ) : zGet z (i : ℤ) = z.getD i 0 := by
  simp [zGet]

theorem autoCorr_zero (z : List ℚ) :
    autoCorr z 0 = (z.map fun a => a ^ 2).sum := by
  rw [autoCorr, listRange_map_sum, sum_map_eq_sum_range]
  apply Finset.sum_congr rfl
  intro i _
  rw [sub_zero, zGet_natCast]
  ring

theorem abs_mul_le_half (a b : ℚ) : |a * b| ≤ (a ^ 2 + b ^ 2) / 2 := by
  rw [abs_mul]
  nlinarith [sq_nonneg (|a| - |b|), sq_abs a, sq_abs b, abs_nonneg a, abs_nonneg b]

/-- The sum of squares over any integer shift of the zero-padded trace is
at most the sum of squares of the trace. -/
theorem sum_shift_sq_le (z : List ℚ) (ℓ : ℤ) :
    ∑ i ∈ Finset.range z.length, zGet z ((i : ℤ) - ℓ) ^ 2
      ≤ ∑ i ∈ Finset.range z.length, z.getD i 0 ^ 2 := by
  have hzero : ∀ i ∈ Finset.range z.length,
      ¬(0 ≤ (i : ℤ) - ℓ ∧ ((i : ℤ) - ℓ).toNat < z.length) →
      zGet z ((i : ℤ) - ℓ) ^ 2 = 0 := by
    intro i _ hiT
    push_neg at hiT
    by_cases hpos : 0 ≤ (i : ℤ) - ℓ
    · have hge : z.length ≤ ((i : ℤ) - ℓ).toNat := hiT hpos
      rw [zGet, if_pos hpos, List.getD_eq_default _ _ hge]
      ring
    · rw [zGet, if_neg hpos]
      ring
  have hsplit : ∑ i ∈ Finset.range z.length, zGet z ((i : ℤ) - ℓ) ^ 2
      = ∑ i ∈ (Finset.range z.length).filter
          (fun i : ℕ => 0 ≤ (i : ℤ) - ℓ ∧ ((i : ℤ) - ℓ).toNat < z.length),
          zGet z ((i : ℤ) - ℓ) ^ 2 := by
    symm
    apply Finset.sum_filter_of_ne
    intro i hi hne
    by_contra hc
    exact hne (hzero i hi hc)
  have hinj : ∀ i ∈ (Finset.range z.length).filter
      (fun i : ℕ => 0 ≤ (i : ℤ) - ℓ ∧ ((i : ℤ) - ℓ).toNat < z.length),
      ∀ j ∈ (Finset.range z.length).filter
      (fun i : ℕ => 0 ≤ (i : ℤ) - ℓ ∧ ((i : ℤ) - ℓ).toNat < z.length),
      ((i : ℤ) - ℓ).toNat = ((j : ℤ) - ℓ).toNat → i = j := by
    intro i hi j hj hij
    have hi' := (Finset.mem_filter.mp hi).2
    have hj' := (Finset.mem_filter.mp hj).2
    omega
  have hcong : ∑ i ∈ (Finset.range z.length).filter
      (fun i : ℕ => 0 ≤ (i : ℤ) - ℓ ∧ ((i : ℤ) - ℓ).toNat < z.length),
      zGet z ((i : ℤ) - ℓ) ^ 2
      = ∑ i ∈ (Finset.range z.length).filter
      (fun i : ℕ => 0 ≤ (i : ℤ) - ℓ ∧ ((i : ℤ) - ℓ).toNat < z.length),
      z.getD (((i : ℤ) - ℓ).toNat) 0 ^ 2 := by
    apply Finset.sum_congr rfl
    intro i hi
    have hmem := (Finset.mem_filter.mp hi).2
    rw [zGet, if_pos hmem.1]
  have himg : ∑ i ∈ (Finset.range z.length).filter
      (fun i : ℕ => 0 ≤ (i : ℤ) - ℓ ∧ ((i : ℤ) - ℓ).toNat < z.length),
      z.getD (((i : ℤ) - ℓ).toNat) 0 ^ 2
      = ∑ j ∈ ((Finset.range z.length).filter
          (fun i : ℕ => 0 ≤ (i : ℤ) - ℓ ∧ ((i : ℤ) - ℓ).toNat < z.length)).image
          (fun i : ℕ => ((i : ℤ) - ℓ).toNat),
          z.getD j 0 ^ 2 := by
    rw [Finset.sum_image hinj]
  rw [hsplit, hcong, himg]
  apply Finset.sum_le_sum_of_subset_of_nonneg
  · intro j hj
    rcases Finset.mem_image.mp hj with ⟨i, hi, rfl⟩
    exact Finset.mem_range.mpr (Finset.mem_filter.mp hi).2.2
  · intro j _ _
    exact sq_nonneg _

/-- `Nat.findGreatest_spec` with the predicate explicit, to guide
unification. -/
theorem findGreatest_spec' (P : ℕ → Prop) [DecidablePred P] (m n : ℕ) (hmb : m ≤ n)
    (hm : P m) : P (Nat.findGreatest P n) := Nat.findGreatest_spec hmb hm

/-- An index with a nonzero `getD` value is in range. -/
theorem lt_length_of_getD_ne {z : List ℚ} {j : ℕ} (h : z.getD j 0 ≠ 0) :
    j < z.length := by
  by_contra hge
  exact h (List.getD_eq_default _ _ (le_of_not_lt hge))

/-- Strict Cauchy–Schwarz-type bound: for a nonzero trace, the
autocorrelation at every nonzero lag is strictly below the lag-0 energy. -/
theorem autoCorr_abs_lt (z : List ℚ)
    (hz : ∃ j, j < z.length ∧ z.getD j 0 ≠ 0) (ℓ : ℤ) (hℓ : ℓ ≠ 0) :
    |autoCorr z ℓ| < autoCorr z 0 := by
  obtain ⟨jw, hjwlen, hjw0⟩ := hz
  -- select an index with nonzero value whose shifted partner vanishes
  obtain ⟨j₀, hj₀, hpartner⟩ : ∃ j₀, z.getD j₀ 0 ≠ 0 ∧ zGet z ((j₀ : ℤ) - ℓ) = 0 := by
    rcases lt_or_gt_of_ne hℓ with hneg | hpos
    · -- negative lag: take the greatest nonzero index
      have hjwle : jw ≤ z.length - 1 := by omega
      obtain ⟨g, hgP, hgGreat⟩ : ∃ g, z.getD g 0 ≠ 0 ∧
          ∀ m, g < m → m ≤ z.length - 1 → ¬z.getD m 0 ≠ 0 := by
        classical
        refine ⟨Nat.findGreatest (fun j => z.getD j 0 ≠ 0) (z.length - 1), ?_, ?_⟩
        · exact findGreatest_spec' (fun j => z.getD j 0 ≠ 0) jw (z.length - 1) hjwle hjw0
        · intro m hm hmle
          exact Nat.findGreatest_is_greatest hm hmle
      refine ⟨g, hgP, ?_⟩
      have hcond : (0 : ℤ) ≤ (g : ℤ) - ℓ := by omega
      rw [zGet, if_pos hcond]
      by_cases hle : ((g : ℤ) - ℓ).toNat ≤ z.length - 1
      · by_contra hne2
        exact hgGreat _ (by omega) hle hne2
      · exact List.getD_eq_default _ _ (by omega)
    · -- positive lag: take the least nonzero index
      have hex : ∃ j, z.getD j 0 ≠ 0 := ⟨jw, hjw0⟩
      obtain ⟨g, hgP, hgMin⟩ : ∃ g, z.getD g 0 ≠ 0 ∧ ∀ m, m < g → z.getD m 0 = 0 :=
        ⟨Nat.find hex, Nat.find_spec hex,
         fun m hm => not_not.mp (Nat.find_min hex hm)⟩
      refine ⟨g, hgP, ?_⟩
      by_cases hpos' : 0 ≤ (g : ℤ) - ℓ
      · rw [zGet, if_pos hpos']
        exact hgMin _ (by omega)
      · rw [zGet, if_neg hpos']
  have hj₀len : j₀ < z.length := lt_length_of_getD_ne hj₀
  have hR : autoCorr z ℓ
      = ∑ i ∈ Finset.range z.length, z.getD i 0 * zGet z ((i : ℤ) - ℓ) := by
    rw [autoCorr, listRange_map_sum]
  have hA : autoCorr z 0 = ∑ i ∈ Finset.range z.length, z.getD i 0 ^ 2 := by
    rw [autoCorr_zero, sum_map_eq_sum_range]
  rw [hR, hA]
  calc |∑ i ∈ Finset.range z.length, z.getD i 0 * zGet z ((i : ℤ) - ℓ)|
      ≤ ∑ i ∈ Finset.range z.length, |z.getD i 0 * zGet z ((i : ℤ) - ℓ)| :=
        Finset.abs_sum_le_sum_abs _ _
    _ < ∑ i ∈ Finset.range z.length,
          (z.getD i 0 ^ 2 + zGet z ((i : ℤ) - ℓ) ^ 2) / 2 := by
        apply Finset.sum_lt_sum (fun i _ => abs_mul_le_half _ _)
        refine ⟨j₀, Finset.mem_range.mpr hj₀len, ?_⟩
        rw [hpartner]
        have : (0 : ℚ) < z.getD j₀ 0 ^ 2 := by positivity
        simp only [mul_zero, abs_zero]
        nlinarith
    _ = ((∑ i ∈ Finset.range z.length, z.getD i 0 ^ 2)
          + ∑ i ∈ Finset.range z.length, zGet z ((i : ℤ) - ℓ) ^ 2) / 2 := by
        rw [← Finset.sum_add_distrib, Finset.sum_div]
    _ ≤ ((∑ i ∈ Finset.range z.length, z.getD i 0 ^ 2)
          + ∑ i ∈ Finset.range z.length, z.getD i 0 ^ 2) / 2 := by
        linarith [sum_shift_sq_le z ℓ]
    _ = ∑ i ∈ Finset.range z.length, z.getD i 0 ^ 2 := by ring

/-! ### `np.argmax` (first maximal index) -/

theorem foldl_max_facts (xs : List ℚ) (a : ℚ) :
    a ≤ xs.foldl max a ∧ (∀ x ∈ xs, x ≤ xs.foldl max a) ∧
    (xs.foldl max a = a ∨ xs.foldl max a ∈ xs) := by
  induction xs generalizing a with
  | nil => simp
  | cons y ys ih =>
    obtain ⟨h1, h2, h3⟩ := ih (max a y)
    simp only [List.foldl_cons]
    refine ⟨le_trans (le_max_left a y) h1, ?_, ?_⟩
    · intro x hx
      rcases List.mem_cons.mp hx with rfl | hx'
      · exact le_trans (le_max_right a x) h1
      · exact h2 x hx'
    · rcases h3 with h | h
      · rcases max_cases a y with ⟨he, _⟩ | ⟨he, _⟩
        · exact Or.inl (h.trans he)
        · exact Or.inr (by rw [h, he]; simp)
      · exact Or.inr (List.mem_cons_of_mem _ h)

theorem le_npMax_of_mem {l : List ℚ} {x : ℚ} (h : x ∈ l) : x ≤ npMax l := by
  cases l with
  | nil => simp at h
  | cons y ys =>
    rcases List.mem_cons.mp h with rfl | h'
    · exact (foldl_max_facts ys x).1
    · exact (foldl_max_facts ys y).2.1 x h'

theorem npMax_mem {l : List ℚ} (h : l ≠ []) : npMax l ∈ l := by
  cases l with
  | nil => exact absurd rfl h
  | cons y ys =>
    rcases (foldl_max_facts ys y).2.2 with he | he
    · rw [npMax, he]
      simp
    · exact List.mem_cons_of_mem _ (by rw [npMax]; exact he)

theorem findIdx_eq_of_first (l : List ℚ) (p : ℚ → Bool) (k : ℕ) (hk : k < l.length)
    (hpk : p (l.getD k 0) = true) (hpre : ∀ j, j < k → p (l.getD j 0) = false) :
    l.findIdx p = k := by
  induction l generalizing k with
  | nil => simp at hk
  | cons x xs ih =>
    cases k with
    | zero =>
      rw [List.findIdx_cons]
      have : p x = true := hpk
      simp [this]
    | succ k' =>
      have h0 : p x = false := hpre 0 (Nat.succ_pos k')
      rw [List.findIdx_cons]
      simp only [h0, cond_false]
      have := ih k' (by simpa using hk) (by simpa using hpk)
        (fun j hj => by simpa using hpre (j + 1) (by omega))
      omega

/-- `np.argmax` returns the index of a strict maximum. -/
theorem argmaxFirst_strict (l : List ℚ) (k : ℕ) (hk : k < l.length)
    (h : ∀ j, j < l.length → j ≠ k → l.getD j 0 < l.getD k 0) :
    argmaxFirst l = k := by
  have hne : l ≠ [] := by
    intro e
    rw [e] at hk
    simp at hk
  have hkmem : l.getD k 0 ∈ l := by
    rw [List.getD_eq_getElem _ _ hk]
    exact List.getElem_mem hk
  have hmax_eq : npMax l = l.getD k 0 := by
    have hmem := npMax_mem hne
    rcases List.mem_iff_getElem.mp hmem with ⟨j, hj, hje⟩
    by_cases hjk : j = k
    · subst hjk
      rw [List.getD_eq_getElem _ _ hj]
      exact hje.symm
    · have hlt := h j hj hjk
      rw [List.getD_eq_getElem _ _ hj] at hlt
      rw [hje] at hlt
      have hle := le_npMax_of_mem hkmem
      linarith
  apply findIdx_eq_of_first _ _ k hk
  · simp [hmax_eq]
  · intro j hj
    have hlt := h j (lt_trans hj hk) (by omega)
    simp only [decide_eq_false_iff_not]
    rw [hmax_eq]
    exact ne_of_lt hlt

theorem abs_map_getD (l : List ℚ) (i : ℕ) :
    (l.map fun x => |x|).getD i 0 = |l.getD i 0| := by
  induction l generalizing i with
  | nil => simp
  | cons a t ih =>
    cases i with
    | zero => simp
    | succ j => simpa using ih j

theorem div_map_getD (l : List ℚ) (S : ℚ) (i : ℕ) :
    (l.map fun c => c / S).getD i 0 = l.getD i 0 / S := by
  induction l generalizing i with
  | nil => simp
  | cons a t ih =>
    cases i with
    | zero => simp
    | succ j => simpa using ih j

/-- The Pearson self-correlation returns exactly 1 whenever the resampled
trace is non-constant. -/
theorem pearsonSelf_one (time sig : List ℚ)
    (hnc : ∃ a ∈ resampled time sig, ∃ b ∈ resampled time sig, a ≠ b) :
    pearsonSelf time sig = some 1 := by
  dsimp only [pearsonSelf]
  have hlen2 : 2 ≤ (resampled time sig).length := two_le_length_of_two_ne hnc
  obtain ⟨x, hx, hxm⟩ := exists_ne_mean hnc
  have hnum : 0 < ((resampled time sig).map
      fun a => (a - mean (resampled time sig)) ^ 2).sum := by
    apply sum_map_pos (fun y _ => sq_nonneg _) hx
    have hne : x - mean (resampled time sig) ≠ 0 := sub_ne_zero.mpr hxm
    exact lt_of_le_of_ne (sq_nonneg _) (Ne.symm (pow_ne_zero 2 hne))
  have hden : (0 : ℚ) < (time.length : ℚ) - 1 := by
    have h2 : 2 ≤ time.length := by
      rw [← resampled_length time sig]
      exact hlen2
    have : (2 : ℚ) ≤ (time.length : ℚ) := by exact_mod_cast h2
    linarith
  have hv : 0 < ((resampled time sig).map
      fun a => (a - mean (resampled time sig)) ^ 2).sum / ((time.length : ℚ) - 1) :=
    div_pos hnum hden
  rw [if_neg (ne_of_gt hv), div_self (ne_of_gt hv)]

/-- The normalized self cross-correlation attains its strict peak absolute
value at lag 0, so `np.argmax` lands on the zero-lag position and the
reported peak lag is 0 — for every `max_lag`, whenever the resampled
trace has a nonzero sample. -/
theorem crossCorrSelf_peak_lag_zero (time sig : List ℚ) (max_lag : ℚ)
    (hz : ∃ j, j < (resampled time sig).length ∧ (resampled time sig).getD j 0 ≠ 0) :
    crossCorrSelfPeakLag time sig max_lag = 0 := by
  dsimp only [crossCorrSelfPeakLag]
  set z := resampled time sig with hzdef
  set S := (z.map fun a => a ^ 2).sum with hSdef
  set n := z.length with hndef
  obtain ⟨jnz, hjnzlen, hjnz0⟩ := hz
  have hn1 : 1 ≤ n := by omega
  have hS0 : 0 < S := by
    rw [hSdef]
    have hamem : z.getD jnz 0 ∈ z := by
      rw [List.getD_eq_getElem _ _ hjnzlen]
      exact List.getElem_mem hjnzlen
    exact sum_map_pos (fun y _ => sq_nonneg _) hamem
      (lt_of_le_of_ne (sq_nonneg _) (Ne.symm (pow_ne_zero 2 hjnz0)))
  set dt := (commonGrid time).getD 1 0 - (commonGrid time).getD 0 0 with hdtdef
  set m := (Int.floor (max_lag / dt)).toNat with hmdef
  have hcc_len : (correlateFull z).length = 2 * n - 1 := by
    rw [correlateFull, List.length_map, List.length_range]
  have hncc_len : ((correlateFull z).map fun c => c / S).length = 2 * n - 1 := by
    rw [List.length_map, hcc_len]
  have hcenter : (2 * n - 1) / 2 = n - 1 := by omega
  rw [hcenter]
  have hls_le : (n - 1) - m ≤ n - 1 := Nat.sub_le _ _
  have hle_gt : n - 1 < min (2 * n - 1) ((n - 1) + m + 1) := by omega
  have hle_le : min (2 * n - 1) ((n - 1) + m + 1) ≤ 2 * n - 1 := min_le_left _ _
  have htrim_len : (pySlice ((correlateFull z).map fun c => c / S)
      ((n - 1) - m) (min (2 * n - 1) ((n - 1) + m + 1))).length
      = min (2 * n - 1) ((n - 1) + m + 1) - ((n - 1) - m) := by
    rw [pySlice_length, hncc_len]
    omega
  -- the value of the trimmed |·| array at each index
  have hval : ∀ i, i < min (2 * n - 1) ((n - 1) + m + 1) - ((n - 1) - m) →
      ((pySlice ((correlateFull z).map fun c => c / S)
        ((n - 1) - m) (min (2 * n - 1) ((n - 1) + m + 1))).map fun x => |x|).getD i 0
      = |autoCorr z (((((n - 1) - m) + i : ℕ) : ℤ) - (n - 1 : ℕ))| / S := by
    intro i hi
    rw [abs_map_getD]
    rw [pySlice_getD _ _ _ _ _ hi]
    rw [div_map_getD]
    have hidx : ((n - 1) - m) + i < 2 * n - 1 := by omega
    rw [correlateFull]
    rw [List.getD_eq_getElem _ _ (by
      rw [List.length_map, List.length_range]
      exact hidx)]
    rw [List.getElem_map, List.getElem_range]
    rw [abs_div, abs_of_pos hS0]
  -- the strict maximum sits at the zero-lag position
  have hk0lt : (n - 1) - ((n - 1) - m) < min (2 * n - 1) ((n - 1) + m + 1) - ((n - 1) - m) := by
    omega
  have hmaxpos : ∀ j, j < min (2 * n - 1) ((n - 1) + m + 1) - ((n - 1) - m) →
      j ≠ (n - 1) - ((n - 1) - m) →
      ((pySlice ((correlateFull z).map fun c => c / S)
        ((n - 1) - m) (min (2 * n - 1) ((n - 1) + m + 1))).map fun x => |x|).getD j 0
      < ((pySlice ((correlateFull z).map fun c => c / S)
        ((n - 1) - m) (min (2 * n - 1) ((n - 1) + m + 1))).map fun x => |x|).getD
        ((n - 1) - ((n - 1) - m)) 0 := by
    intro j hj hjne
    rw [hval j hj, hval _ hk0lt]
    have hlag0 : ((((n - 1) - m) + ((n - 1) - ((n - 1) - m)) : ℕ) : ℤ) - (n - 1 : ℕ) = 0 := by
      omega
    rw [hlag0]
    have hlagj : ((((n - 1) - m) + j : ℕ) : ℤ) - (n - 1 : ℕ) ≠ 0 := by omega
    apply (div_lt_div_iff_of_pos_right hS0).mpr
    calc |autoCorr z (((((n - 1) - m) + j : ℕ) : ℤ) - (n - 1 : ℕ))|
        < autoCorr z 0 := autoCorr_abs_lt z ⟨jnz, hjnzlen, hjnz0⟩ _ hlagj
      _ = |autoCorr z 0| := by
          rw [abs_of_pos]
          rw [autoCorr_zero, ← hSdef]
          exact hS0
  have hargmax : argmaxFirst ((pySlice ((correlateFull z).map fun c => c / S)
      ((n - 1) - m) (min (2 * n - 1) ((n - 1) + m + 1))).map fun x => |x|)
      = (n - 1) - ((n - 1) - m) := by
    apply argmaxFirst_strict
    · rw [List.length_map, htrim_len]
      exact hk0lt
    · intro j hjlen hjne
      rw [List.length_map, htrim_len] at hjlen
      exact hmaxpos j hjlen hjne
  rw [hargmax]
  have hsum : (n - 1 - m) + (n - 1 - (n - 1 - m)) = n - 1 := by omega
  have hq : ((n - 1 - m : ℕ) : ℚ) + ((n - 1 - (n - 1 - m) : ℕ) : ℚ)
      = ((n - 1 : ℕ) : ℚ) := by exact_mod_cast congrArg (Nat.cast : ℕ → ℚ) hsum
  have hexpr : (((n - 1 - m : ℕ) : ℤ) : ℚ) - ((n - 1 : ℕ) : ℚ)
      + ((n - 1 - (n - 1 - m) : ℕ) : ℚ) = 0 := by
    push_cast at hq ⊢
    linarith
  rw [hexpr, zero_mul]

/-- **C9 (amended).** For every trace whose resampling onto the shared
evenly spaced grid is non-constant, self-correlation round-trips: the
Pearson analysis reports exactly 1, and the norm-normalized
cross-correlation reports its peak absolute correlation at lag 0 for
every max-lag setting.  (A constant resampled trace instead produces a
NaN Pearson coefficient — see the counterexample.) -/
theorem correlation_self_roundtrip (time sig : List ℚ)
    (hnc : ∃ a ∈ resampled time sig, ∃ b ∈ resampled time sig, a ≠ b) :
    pearsonSelf time sig = some 1 ∧
    ∀ max_lag : ℚ, crossCorrSelfPeakLag time sig max_lag = 0 := by
  refine ⟨pearsonSelf_one time sig hnc, fun ml => ?_⟩
  apply crossCorrSelf_peak_lag_zero
  rcases hnc with ⟨a, ha, b, hb, hab⟩
  have hor : a ≠ 0 ∨ b ≠ 0 := by
    by_contra hcon
    push_neg at hcon
    rw [hcon.1, hcon.2] at hab
    exact hab rfl
  rcases hor with h | h
  · rcases List.mem_iff_getElem.mp ha with ⟨i, hi, he⟩
    refine ⟨i, hi, ?_⟩
    rw [List.getD_eq_getElem _ _ hi, he]
    exact h
  · rcases List.mem_iff_getElem.mp hb with ⟨i, hi, he⟩
    refine ⟨i, hi, ?_⟩
    rw [List.getD_eq_getElem _ _ hi, he]
    exact h

/-- **C9 (counterexample).** A constant trace correlated with itself:
the resampled trace is constant, the sample variance is 0, and
`np.corrcoef` divides 0 by 0, reporting NaN (modelled `none`) — not the
claimed correlation coefficient of 1.0. -/
theorem pearson_constant_counterexample :
    pearsonSelf [0, 1, 2] [5, 5, 5] = none ∧ (none : Option ℚ) ≠ some 1 := by
  constructor
  · norm_num [pearsonSelf, resampled, commonGrid, linspace, npInterp, mean,
      List.range_succ, List.getD, List.headD, List.getLastD]
  · simp

/-- Witness for the amended C9 at a concrete non-constant trace. -/
theorem correlation_self_roundtrip_witness :
    pearsonSelf [0, 1, 2] [1, 2, 4] = some 1 ∧
    crossCorrSelfPeakLag [0, 1, 2] [1, 2, 4] 10 = 0 := by
  have hres : resampled [0, 1, 2] [1, 2, 4] = [1, 2, 4] := by
    norm_num [resampled, commonGrid, linspace, npInterp,
      List.range_succ, List.getD, List.headD, List.getLastD]
  have h := correlation_self_roundtrip [0, 1, 2] [1, 2, 4]
    (by
      rw [hres]
      exact ⟨1, by simp, 2, by simp, by norm_num⟩)
  exact ⟨h.1, h.2 10⟩

end AiPy
